import Mathlib

/-!
Verification of the diving-location generation pipeline
(`scripts/locations/generate_zones.py`, `generate_areas.py`,
`generate_points.py`).

The pipeline is shallowly embedded: Python dictionaries for the four
tree levels (Region, Zone, Area, Point) become flat structures, the
`difflib.SequenceMatcher`-based fuzzy deduplication becomes an exact
rational comparison (Python compares floats, but with names of
realistic length the rounding error of a double is orders of magnitude
below the gap between distinct ratios, so the rational comparison is
faithful; the autojunk heuristic of `SequenceMatcher`, which only
triggers on strings of 200 characters or more, is not modelled), and
the generation client becomes an oracle passed in as a function.  File
writes are modelled as events in a trace.
-/

namespace DivingDex

/-! ## Fuzzy similarity (`generate_points.py`, `is_similar` / `check_duplicate`)

`difflib.SequenceMatcher` (no junk, no autojunk) computes the set of
matching blocks recursively: find the longest matching block --- among
equally long ones the one starting earliest in `a`, ties broken by the
earliest start in `b` --- then recurse on the parts to the left and to
the right of the block.  `ratio()` is `2*M/T` where `M` is the total
size of the matching blocks and `T` the sum of both lengths. -/

/-- Length of the common prefix run of two character lists. -/
def commonRun : List Char → List Char → Nat
  | a :: as, b :: bs => if a = b then commonRun as bs + 1 else 0
  | _, _ => 0

/-- `find_longest_match` over whole lists: the triple `(i, j, k)` of the
longest matching block, earliest start in `a`, then earliest in `b`
(`difflib` scans ends in ascending order and only replaces the current
best on a strictly longer run, which selects exactly this block). -/
def flm (a b : List Char) : Nat × Nat × Nat :=
  (List.range a.length).foldl (fun best i =>
    (List.range b.length).foldl (fun best j =>
      let k := commonRun (a.drop i) (b.drop j)
      if best.2.2 < k then (i, j, k) else best) best) (0, 0, 0)

/-- Total size of all matching blocks (`get_matching_blocks`), fuelled;
every recursion strictly decreases the total length, so
`a.length + b.length` fuel is always sufficient. -/
def matchTotalF : Nat → List Char → List Char → Nat
  | 0, _, _ => 0
  | fuel + 1, a, b =>
    let t := flm a b
    if t.2.2 = 0 then 0
    else
      t.2.2 + matchTotalF fuel (a.take t.1) (b.take t.2.1) +
        matchTotalF fuel (a.drop (t.1 + t.2.2)) (b.drop (t.2.1 + t.2.2))

/-- `SequenceMatcher(None, a, b)`: total number of matched characters. -/
def matchTotal (a b : List Char) : Nat :=
  matchTotalF (a.length + b.length) a b

/-- `is_similar` from `generate_points.py`:
`SequenceMatcher(None, name1, name2).ratio() >= SIMILARITY_THRESHOLD`
with `SIMILARITY_THRESHOLD = 0.85`; `ratio = 2*M/T ≥ 17/20 ↔ 40*M ≥ 17*T`
(`difflib` defines the ratio of two empty strings to be `1.0`, which the
inequality `0 ≥ 0` also classifies as similar). -/
def is_similar (name1 name2 : String) : Bool :=
  decide (17 * (name1.data.length + name2.data.length) ≤
    40 * matchTotal name1.data name2.data)

/-- `check_duplicate` from `generate_points.py`: exact membership first,
then the first existing name similar to the candidate. -/
def check_duplicate (new_point_name : String) (existing_names : List String) :
    Option String :=
  if new_point_name ∈ existing_names then some new_point_name
  else existing_names.find? (fun existing => is_similar new_point_name existing)

/-! ## Generation request loop
(`generate_zones.py` / `generate_points.py`, `generate_zones` /
`generate_points`)

For one work unit the code iterates `CANDIDATE_MODELS`; per model it
runs `len(API_KEYS) * 2` attempts.  The request *and* the JSON parse
sit in one `try`: an exception from either is classified by substrings
of `str(e)` (`"429"` → quota: rotate the key and retry the same model,
`"404"`/`"not found"` → unsupported model, anything else → abandon the
model).  In particular a `json.JSONDecodeError` whose message happens
to contain `"429"` takes the quota path.  The remote call and the JSON
parser are oracles: `api` maps the global attempt counter to a raw text
or an already classified exception, `parse` maps the stripped text to a
record list or the parse exception's message. -/

/-- Python `str.strip()` on the raw response text. -/
def pyStrip (l : List Char) : List Char :=
  ((l.dropWhile Char.isWhitespace).reverse.dropWhile Char.isWhitespace).reverse

/-- The seven characters of the opening code-fence marker. -/
def fenceJson : List Char := String.toList "```json"

/-- The three characters of the closing code-fence marker. -/
def fence : List Char := String.toList "```"

/-- `text.startswith("```json")`. -/
def startsWithFenceJson (t : List Char) : Bool := decide (t.take 7 = fenceJson)

/-- `text.endswith("```")`. -/
def endsWithFence (t : List Char) : Bool := decide (t.drop (t.length - 3) = fence)

/-- The fence-stripping done before `json.loads`: drop a leading
"```json" marker (`text[7:]`) and a trailing "```" marker
(`text[:-3]`), each only when present. -/
def strip_markdown (text : List Char) : List Char :=
  let t1 := if startsWithFenceJson text then text.drop 7 else text
  if endsWithFence t1 then t1.take (t1.length - 3) else t1

/-- Python's substring test `sub in s`. -/
def containsSub (sub : List Char) : List Char → Bool
  | [] => decide (sub = [])
  | c :: rest =>
    decide ((c :: rest).take sub.length = sub) || containsSub sub rest

/-- The three classes the `except` block sorts an exception into. -/
inductive ErrClass where
  | quota
  | notFound
  | other
  deriving DecidableEq

/-- The `except` block's classification of `str(e)`: `"429" in
error_str`, then `"404" in error_str or "not found" in
error_str.lower()`, else the generic branch. -/
def classifyError (msg : List Char) : ErrClass :=
  if containsSub (String.toList "429") msg then ErrClass.quota
  else if containsSub (String.toList "404") msg ||
      containsSub (String.toList "not found") (msg.map Char.toLower) then
    ErrClass.notFound
  else ErrClass.other

/-- Outcome of one `model.generate_content` call: a raw text, or an
exception already sorted by `classifyError`. -/
inductive ApiResult where
  | ok (text : List Char)
  | errQuota
  | errNotFound
  | errOther
  deriving DecidableEq

/-- An API exception of a given class. -/
def classifiedApi : ErrClass → ApiResult
  | ErrClass.quota => ApiResult.errQuota
  | ErrClass.notFound => ApiResult.errNotFound
  | ErrClass.other => ApiResult.errOther

/-- What one attempt decides to do next. -/
inductive StepRes (ρ : Type) where
  | success (records : List ρ)
  | failEmpty
  | failQuota
  | failNext
  deriving DecidableEq

/-- One attempt: strip and parse a successful response (an empty parsed
list falls through to the next attempt, `if result:`); an exception of
the API call or of `json.loads` --- both sit in the same `try` --- is
classified by its message: a quota-classified message retries with a
rotated key, not-found and any other message abandon the model.  (So a
parse error whose message contains `"429"` takes the quota path.) -/
def handleResponse {ρ : Type} (parse : List Char → Except (List Char) (List ρ)) :
    ApiResult → StepRes ρ
  | .ok text =>
    match parse (strip_markdown (pyStrip text)) with
    | .ok l => if l.isEmpty then .failEmpty else .success l
    | .error msg =>
      match classifyError msg with
      | ErrClass.quota => .failQuota
      | ErrClass.notFound => .failNext
      | ErrClass.other => .failNext
  | .errQuota => .failQuota
  | .errNotFound => .failNext
  | .errOther => .failNext

/-- `rotate_key`: advance the global key index, a no-op with a single
configured key. -/
def rotate_key (numKeys idx : Nat) : Nat :=
  if 1 < numKeys then (idx + 1) % numKeys else idx

/-- The per-model retry loop (`for attempt in range(len(API_KEYS) * 2)`),
threading the global attempt counter and key index.  Returns `none`
when the model was exhausted or abandoned. -/
def runAttempts {ρ : Type} (parse : List Char → Except (List Char) (List ρ))
    (api : Nat → ApiResult) (numKeys : Nat) :
    Nat → Nat → Nat → Option (List ρ) × Nat × Nat
  | 0, calls, key => (none, calls, key)
  | n + 1, calls, key =>
    match handleResponse parse (api calls) with
    | .success l => (some l, calls + 1, key)
    | .failEmpty => runAttempts parse api numKeys n (calls + 1) key
    | .failQuota => runAttempts parse api numKeys n (calls + 1) (rotate_key numKeys key)
    | .failNext => (none, calls + 1, key)

/-- The model fallback loop (`for model_name in CANDIDATE_MODELS`): try
each model with a fresh `len(API_KEYS) * 2` attempt budget; the first
success short-circuits; full exhaustion yields the empty list. -/
def generationLoop {ρ : Type} (parse : List Char → Except (List Char) (List ρ))
    (api : Nat → ApiResult) (numKeys : Nat) :
    List String → Nat → Nat → List ρ × Nat × Nat
  | [], calls, key => ([], calls, key)
  | _ :: models, calls, key =>
    match runAttempts parse api numKeys (numKeys * 2) calls key with
    | (some l, calls1, key1) => (l, calls1, key1)
    | (none, calls1, key1) => generationLoop parse api numKeys models calls1 key1

/-- `text.startswith("```")` (the bare-fence strip of the areas stage). -/
def startsWithFence (t : List Char) : Bool := decide (t.take 3 = fence)

/-- `text.strip().endswith("\x7d")` (the repair test of the areas stage). -/
def endsWithBrace (t : List Char) : Bool :=
  decide (t.drop (t.length - 1) = String.toList "\x7d")

/-- The fence stripping and repair of `generate_areas.py` before
`json.loads`: drop a leading "```json" marker (`text[7:]`), then a
still-leading bare "```" marker (`text[3:]`), then a trailing "```"
marker (`text[:-3]`); finally, if the stripped text ends with a closing
brace, append `"]"`. -/
def strip_markdown_areas (text : List Char) : List Char :=
  let t1 := if startsWithFenceJson text then text.drop 7 else text
  let t2 := if startsWithFence t1 then t1.drop 3 else t1
  let t3 := if endsWithFence t2 then t2.take (t2.length - 3) else t2
  if endsWithBrace (pyStrip t3) then t3 ++ String.toList "]" else t3

/-- The areas-stage request loop (`generate_areas.py`,
`generate_areas`): `for attempt in range(5)` with a single model and no
key rotation.  A parsed response is returned as-is (no emptiness
check); an exception of the call or of `json.loads` retries after a
sleep when its message classifies as quota and otherwise aborts the
unit with an empty result; exhausting the five attempts also yields
the empty list. -/
def areasAttempts {ρ : Type} (parse : List Char → Except (List Char) (List ρ))
    (api : Nat → ApiResult) : Nat → Nat → List ρ × Nat
  | 0, calls => ([], calls)
  | n + 1, calls =>
    match api calls with
    | ApiResult.ok text =>
      match parse (strip_markdown_areas (pyStrip text)) with
      | Except.ok l => (l, calls + 1)
      | Except.error msg =>
        match classifyError msg with
        | ErrClass.quota => areasAttempts parse api n (calls + 1)
        | ErrClass.notFound => ([], calls + 1)
        | ErrClass.other => ([], calls + 1)
    | ApiResult.errQuota => areasAttempts parse api n (calls + 1)
    | ApiResult.errNotFound => ([], calls + 1)
    | ApiResult.errOther => ([], calls + 1)

/-! ## Tree data model

The persisted JSON file is a list of Region dictionaries with nested
`children` lists down to Point level.  The keys the pipeline reads or
writes are `id`, `name` and `children` (plus `image` on Points); every
other generated attribute is opaque to the pipeline and folded into a
single `payload` field, so equality of these structures is equality of
the corresponding JSON objects. -/

structure Point where
  id : String
  name : String
  payload : String
  image : String
  deriving DecidableEq

structure Area where
  id : String
  name : String
  payload : String
  children : List Point
  deriving DecidableEq

structure Zone where
  id : String
  name : String
  payload : String
  children : List Area
  deriving DecidableEq

structure Region where
  id : String
  name : String
  payload : String
  children : List Zone
  deriving DecidableEq

/-- A parsed generation record before ids are assigned (Point level). -/
structure PointRec where
  name : String
  payload : String
  deriving DecidableEq

/-- A parsed generation record (Area level). -/
structure AreaRec where
  name : String
  payload : String
  deriving DecidableEq

/-- A parsed generation record (Zone level, nested in a Region record). -/
structure ZoneRec where
  name : String
  payload : String
  deriving DecidableEq

/-- A parsed generation record (Region level, `new_data[0]`). -/
structure RegionRec where
  name : String
  payload : String
  children : List ZoneRec
  deriving DecidableEq

/-- The `--mode` command-line choice. -/
inductive Mode where
  | append
  | overwrite
  | clean
  deriving DecidableEq

/-- A produced work unit `{"region": r, "zone": z}` (output of the zones
stage, input of the areas stage). -/
structure ZoneTarget where
  region : String
  zone : String
  deriving DecidableEq

/-- A produced work unit `{"region": r, "zone": z, "area": a}` (output
of the areas stage, input of the points stage). -/
structure AreaTarget where
  region : String
  zone : String
  area : String
  deriving DecidableEq

/-- Observable file/API effects of a stage run, in program order.
`saveTree` is one `json.dump(all_locations, OUTPUT_FILE)`,
`saveProduced` one `json.dump(produced_list, PRODUCED_FILE)`, `genReq`
one invocation of the stage's generation function for a work unit. -/
inductive Ev (π : Type) where
  | saveTree (t : List Region)
  | saveProduced (p : π)
  | genReq (region zone area : String)
  deriving DecidableEq

/-- Update the first element satisfying `p` (Python finds the node
object with `next(...)` and mutates it in place). -/
def updateFirst {α : Type} (p : α → Bool) (f : α → α) : List α → List α
  | [] => []
  | x :: xs => if p x then f x :: xs else x :: updateFirst p f xs

/-- `zone_node["children"] = ...` -/
def zoneSetChildren (cs : List Area) (Z : Zone) : Zone := {Z with children := cs}

/-- `area_node["children"] = ...` -/
def areaSetChildren (cs : List Point) (A : Area) : Area := {A with children := cs}

/-- Apply an update to the first zone named `z` of a region. -/
def regionZoneUpdate (z : String) (g : Zone → Zone) (R : Region) : Region :=
  {R with children := updateFirst (fun Z => Z.name == z) g R.children}

/-- Apply an update to the first area named `a` of a zone. -/
def zoneAreaUpdate (a : String) (h : Area → Area) (Z : Zone) : Zone :=
  {Z with children := updateFirst (fun A => A.name == a) h Z.children}

/-- Replace the children of the first zone on the named path. -/
def updateZoneChildren (r z : String) (cs : List Area) (tree : List Region) :
    List Region :=
  updateFirst (fun R => R.name == r) (regionZoneUpdate z (zoneSetChildren cs)) tree

/-- Locate the first zone on the named path (`next(...)` chains). -/
def locateZone (tree : List Region) (r z : String) : Option Zone :=
  match tree.find? (fun R => R.name == r) with
  | none => none
  | some R => R.children.find? (fun Z => Z.name == z)

/-! ## Zones stage (`generate_zones.py`, `main`) -/

/-- Id of a zone merged into an existing region:
`f"z_{int(time.time())}_{new_z['name']}"`. -/
def mkZoneIdName (now : Nat) (name : String) : String :=
  "z_" ++ toString now ++ "_" ++ name

/-- Id of the `i`-th zone of a freshly created region:
`f"z_{int(time.time())}_{i}"`. -/
def mkZoneIdIdx (now i : Nat) : String :=
  "z_" ++ toString now ++ "_" ++ toString i

/-- Id of a freshly created region: `f"r_{int(time.time())}"`. -/
def mkRegionId (now : Nat) : String := "r_" ++ toString now

/-- Merge generated zone records into an existing region's children:
the name set is computed once up front, records with a colliding name
are skipped, new ones are appended with a fresh id. -/
def mergeZones (now : Nat) (ex : List Zone) (recs : List ZoneRec) : List Zone :=
  let names := ex.map (fun z => z.name)
  recs.foldl (fun acc z =>
    if names.contains z.name then acc
    else acc ++ [⟨mkZoneIdName now z.name, z.name, z.payload, []⟩]) ex

/-- Merge generated zone records into an existing region node. -/
def regionMergeZones (now : Nat) (recs : List ZoneRec) (R : Region) : Region :=
  {R with children := mergeZones now R.children recs}

/-- A freshly created region node: the generated record, an `r_` id, and
`z_` ids assigned to its children by index. -/
def newRegionNode (now : Nat) (rec : RegionRec) : Region :=
  ⟨mkRegionId now, rec.name, rec.payload,
    rec.children.enum.map (fun p => ⟨mkZoneIdIdx now p.1, p.2.name, p.2.payload, []⟩)⟩

/-- One work unit (one region name) of the zones stage.  Returns the new
in-memory tree, the produced-list entries appended for this unit, and
the unit's effect events.  In append mode an existing region is
skipped, its zones reported as produced; in overwrite mode every
same-named region is removed from the in-memory list (before
generation, so a failed generation leaves the region dropped); a
non-empty generation result is merged (or appended as a new region) and
the tree is saved incrementally. -/
def zonesUnit (gen : String → List RegionRec) (now : Nat) (mode : Mode)
    (tree : List Region) (r : String) :
    List Region × List ZoneTarget × List (Ev (List ZoneTarget)) :=
  let existing := tree.find? (fun R => R.name == r)
  if mode = Mode.append ∧ existing.isSome then
    (tree,
      (match existing with
       | some R => R.children.map (fun z => ⟨r, z.name⟩)
       | none => []),
      [])
  else
    let removed := mode = Mode.overwrite ∧ existing.isSome
    let tree1 := if removed then tree.filter (fun R => !(R.name == r)) else tree
    let existing1 := if removed then none else existing
    match gen r with
    | [] => (tree1, [], [Ev.genReq r "" ""])
    | rec :: _ =>
      match existing1 with
      | some _ =>
        let tree2 := updateFirst (fun R => R.name == r)
          (regionMergeZones now rec.children) tree1
        (tree2, rec.children.map (fun z => ⟨r, z.name⟩),
          [Ev.genReq r "" "", Ev.saveTree tree2])
      | none =>
        let tree2 := tree1 ++ [newRegionNode now rec]
        (tree2, rec.children.map (fun z => ⟨r, z.name⟩),
          [Ev.genReq r "" "", Ev.saveTree tree2])

/-- Accumulated state of a zones-stage run. -/
structure ZStageState where
  tree : List Region
  produced : List ZoneTarget
  events : List (Ev (List ZoneTarget))
  deriving DecidableEq

/-- Fold one work unit into the zones-stage state. -/
def zonesStep (gen : String → List RegionRec) (now : Nat) (mode : Mode)
    (st : ZStageState) (r : String) : ZStageState :=
  let u := zonesUnit gen now mode st.tree r
  ⟨u.1, st.produced ++ u.2.1, st.events ++ u.2.2⟩

/-- The zones-stage `main` after argument parsing: a missing input
config aborts with no work and no writes; clean mode starts from an
empty in-memory tree; otherwise the loaded tree is used; the produced
list is written once after the loop. -/
def zonesRun (gen : String → List RegionRec) (now : Nat) (mode : Mode)
    (config : Option (List String)) (tree0 : List Region) : ZStageState :=
  match config with
  | none => ⟨tree0, [], []⟩
  | some regions =>
    let init : List Region := if mode = Mode.clean then [] else tree0
    let st := regions.foldl (zonesStep gen now mode) ⟨init, [], []⟩
    ⟨st.tree, st.produced, st.events ++ [Ev.saveProduced st.produced]⟩

/-! ## Areas stage (`generate_areas.py`, `main`) -/

/-- Id of a newly attached area: `f"a_{int(time.time())}_{new_a['name']}"`. -/
def mkAreaId (now : Nat) (name : String) : String :=
  "a_" ++ toString now ++ "_" ++ name

/-- Merge generated area records into a zone's children; the sibling
name set is computed once before the loop. -/
def mergeAreas (now : Nat) (ex : List Area) (recs : List AreaRec) : List Area :=
  let names := ex.map (fun a => a.name)
  recs.foldl (fun acc a =>
    if names.contains a.name then acc
    else acc ++ [⟨mkAreaId now a.name, a.name, a.payload, []⟩]) ex

/-- One work unit (`{region, zone}`) of the areas stage.  A locate
failure at either level skips the unit; append mode skips an already
populated zone (reporting its areas as produced); overwrite clears the
children first; the merged children are written back to the zone node.
No tree save happens here: the areas stage saves once after the loop. -/
def areasUnit (gen : String → String → List AreaRec) (now : Nat) (mode : Mode)
    (tree : List Region) (u : ZoneTarget) :
    List Region × List AreaTarget × List (Ev (List AreaTarget)) :=
  match locateZone tree u.region u.zone with
  | none => (tree, [], [])
  | some Z =>
    let existing := Z.children
    if mode = Mode.append ∧ existing ≠ [] then
      (tree, existing.map (fun a => ⟨u.region, u.zone, a.name⟩), [])
    else
      let existing1 := if mode = Mode.overwrite ∧ existing ≠ [] then [] else existing
      let recs := gen u.region u.zone
      let tree2 := updateZoneChildren u.region u.zone (mergeAreas now existing1 recs) tree
      (tree2, recs.map (fun a => ⟨u.region, u.zone, a.name⟩),
        [Ev.genReq u.region u.zone ""])

/-- Accumulated state of an areas-stage run. -/
structure AStageState where
  tree : List Region
  produced : List AreaTarget
  events : List (Ev (List AreaTarget))
  deriving DecidableEq

/-- Fold one work unit into the areas-stage state. -/
def areasStep (gen : String → String → List AreaRec) (now : Nat) (mode : Mode)
    (st : AStageState) (u : ZoneTarget) : AStageState :=
  let r := areasUnit gen now mode st.tree u
  ⟨r.1, st.produced ++ r.2.1, st.events ++ r.2.2⟩

/-- The areas-stage `main` after argument parsing: a missing input
config aborts with no work and no writes; after the loop the tree is
written once, then the produced list once. -/
def areasRun (gen : String → String → List AreaRec) (now : Nat) (mode : Mode)
    (config : Option (List ZoneTarget)) (tree0 : List Region) : AStageState :=
  match config with
  | none => ⟨tree0, [], []⟩
  | some targets =>
    let init : List Region := if mode = Mode.clean then [] else tree0
    let st := targets.foldl (areasStep gen now mode) ⟨init, [], []⟩
    ⟨st.tree, st.produced, st.events ++ [Ev.saveTree st.tree, Ev.saveProduced st.produced]⟩

/-! ## Points stage (`generate_points.py`, `main`) -/

/-- Id of a newly attached point: `f"p_{int(time.time())}_{new_p['name']}"`. -/
def mkPointId (now : Nat) (name : String) : String :=
  "p_" ++ toString now ++ "_" ++ name

/-- `get_existing_point_names`: every point name in the tree, collected
into a set (modelled as a duplicate-free list). -/
def pointNames (tree : List Region) : List String :=
  tree.foldl (fun acc R =>
    R.children.foldl (fun acc Z =>
      Z.children.foldl (fun acc A =>
        A.children.foldl (fun acc p =>
          if acc.contains p.name then acc else acc ++ [p.name]) acc) acc) acc) []

/-- The overwrite branch's cleanup of the global dedup set:
`if p["name"] in global_existing_points: global_existing_points.remove(...)`
for each discarded child. -/
def removeNames (g : List String) (pts : List Point) : List String :=
  pts.foldl (fun g p => if g.contains p.name then g.erase p.name else g) g

/-- The accept loop over generated point records: a candidate flagged by
`check_duplicate` is dropped; otherwise it gets an id and empty image,
is appended to the children and its name added to the global set. -/
def attachPoints (now : Nat) (recs : List PointRec) (ex : List Point)
    (g : List String) : List Point × List String :=
  recs.foldl (fun acc p =>
    match check_duplicate p.name acc.2 with
    | some _ => acc
    | none => (acc.1 ++ [⟨mkPointId now p.name, p.name, p.payload, ""⟩],
        acc.2 ++ [p.name])) (ex, g)

/-- Replace (functionally) the first area on the named path. -/
def updateArea (r z a : String) (f : Area → Area) (tree : List Region) :
    List Region :=
  updateFirst (fun R => R.name == r) (regionZoneUpdate z (zoneAreaUpdate a f)) tree

/-- Locate the first area on the named path (`next(...)` chains). -/
def locateArea (tree : List Region) (r z a : String) : Option Area :=
  match tree.find? (fun R => R.name == r) with
  | none => none
  | some R =>
    match R.children.find? (fun Z => Z.name == z) with
    | none => none
    | some Z => Z.children.find? (fun A => A.name == a)

/-- One work unit (`{region, zone, area}`) of the points stage,
threading the tree and the global dedup set.  Append mode skips a
populated area; overwrite removes the discarded children's names from
the global set *then* clears the children; generated records are
deduplicated against the global set and attached; the tree is saved
incrementally. -/
def pointsUnit (gen : String → String → String → List PointRec) (now : Nat)
    (mode : Mode) (tree : List Region) (g : List String) (u : AreaTarget) :
    List Region × List String × List (Ev Unit) :=
  match locateArea tree u.region u.zone u.area with
  | none => (tree, g, [])
  | some A =>
    let existing := A.children
    if mode = Mode.append ∧ existing ≠ [] then (tree, g, [])
    else
      let cleared := mode = Mode.overwrite ∧ existing ≠ []
      let g1 := if cleared then removeNames g existing else g
      let ex1 := if cleared then [] else existing
      let res := attachPoints now (gen u.region u.zone u.area) ex1 g1
      let tree2 := updateArea u.region u.zone u.area (areaSetChildren res.1) tree
      (tree2, res.2, [Ev.genReq u.region u.zone u.area, Ev.saveTree tree2])

/-- Accumulated state of a points-stage run. -/
structure PStageState where
  tree : List Region
  global : List String
  events : List (Ev Unit)
  deriving DecidableEq

/-- Fold one work unit into the points-stage state. -/
def pointsStep (gen : String → String → String → List PointRec) (now : Nat)
    (mode : Mode) (st : PStageState) (u : AreaTarget) : PStageState :=
  let r := pointsUnit gen now mode st.tree st.global u
  ⟨r.1, r.2.1, st.events ++ r.2.2⟩

/-- Event classifier: is this event a write of the tree file? -/
def isSaveTreeEv {π : Type} : Ev π → Bool
  | Ev.saveTree _ => true
  | _ => false

/-- Event classifier: is this event a write of the produced-list file? -/
def isSaveProducedEv {π : Type} : Ev π → Bool
  | Ev.saveProduced _ => true
  | _ => false

/-- Sibling-name uniqueness at Region scope: the zone names under each
region are pairwise distinct. -/
def zoneNamesNodup (tree : List Region) : Prop :=
  ∀ R ∈ tree, (R.children.map (fun Z => Z.name)).Nodup

/-- Sibling-name uniqueness at Zone scope: the area names under each
zone are pairwise distinct. -/
def areaNamesNodup (tree : List Region) : Prop :=
  ∀ R ∈ tree, ∀ Z ∈ R.children, (Z.children.map (fun A => A.name)).Nodup

/-- Decidable check of both sibling-uniqueness invariants. -/
def siblingNamesOk (tree : List Region) : Bool :=
  tree.all (fun R =>
    decide (R.children.map (fun Z => Z.name)).Nodup &&
      R.children.all (fun Z => decide (Z.children.map (fun A => A.name)).Nodup))

/-- The points-stage `main` after argument parsing: a missing input
config aborts with no work and no writes; the global dedup set is built
from the loaded tree before the loop; the points stage produces no
next-step list. -/
def pointsRun (gen : String → String → String → List PointRec) (now : Nat)
    (mode : Mode) (config : Option (List AreaTarget)) (tree0 : List Region) :
    PStageState :=
  match config with
  | none => ⟨tree0, [], []⟩
  | some targets =>
    let init : List Region := if mode = Mode.clean then [] else tree0
    targets.foldl (pointsStep gen now mode) ⟨init, pointNames init, []⟩

/-- Append-mode stability of an areas work unit: a located zone either
is already populated or its generation batch is empty. -/
def AreaGenOk (gen : String → String → List AreaRec) (tree : List Region)
    (u : ZoneTarget) : Prop :=
  ∀ Z, locateZone tree u.region u.zone = some Z →
    (Z.children ≠ [] ∨ gen u.region u.zone = [])

/-- Append-mode stability of a points work unit: a located area either
is already populated or every generated record is rejected against the
tree's point-name set. -/
def PointGenOk (gen : String → String → String → List PointRec)
    (tree : List Region) (u : AreaTarget) : Prop :=
  ∀ A, locateArea tree u.region u.zone u.area = some A →
    (A.children ≠ [] ∨
      (attachPoints 0 (gen u.region u.zone u.area) [] (pointNames tree)).1 = [])

end DivingDex

namespace DivingDex

/-! ## Helper lemmas -/

theorem find?_updateFirst_disjoint {α : Type} (p q : α → Bool) (f : α → α)
    (l : List α) (hq : ∀ x, q (f x) = q x)
    (hdisj : ∀ x, p x = true → q x = false) :
    (updateFirst p f l).find? q = l.find? q := by
  induction l with
  | nil => rfl
  | cons x xs ih =>
    by_cases hp : p x = true
    · have hqx : q x = false := hdisj x hp
      simp [updateFirst, hp, List.find?, hq, hqx, ih]
    · simp only [updateFirst, hp, if_false, List.find?]
      cases hqx : q x with
      | true => rfl
      | false => exact ih

theorem find?_updateFirst_self {α : Type} (p : α → Bool) (f : α → α)
    (l : List α) (hp : ∀ x, p (f x) = p x) :
    (updateFirst p f l).find? p = (l.find? p).map f := by
  induction l with
  | nil => rfl
  | cons x xs ih =>
    by_cases hpx : p x = true
    · simp [updateFirst, hpx, List.find?, hp]
    · simp only [updateFirst, hpx, if_false, List.find?,
        Bool.not_eq_true] at *
      simp [hpx, ih]

theorem updateFirst_eq_of_fix {α : Type} (p : α → Bool) (f : α → α)
    (l : List α) (h : ∀ x, l.find? p = some x → f x = x) :
    updateFirst p f l = l := by
  induction l with
  | nil => rfl
  | cons x xs ih =>
    cases hpx : p x with
    | true =>
      have hx : f x = x := by
        apply h
        simp [List.find?, hpx]
      simp [updateFirst, hpx, hx]
    | false =>
      have hxs : updateFirst p f xs = xs := by
        apply ih
        intro y hy
        apply h
        simpa [List.find?, hpx] using hy
      simp [updateFirst, hpx, hxs]

theorem updateFirst_of_find?_none {α : Type} (p : α → Bool) (f : α → α)
    (l : List α) (h : l.find? p = none) : updateFirst p f l = l := by
  induction l with
  | nil => rfl
  | cons x xs ih =>
    simp only [List.find?] at h
    cases hpx : p x with
    | true => simp [hpx] at h
    | false =>
      simp only [hpx] at h
      simp [updateFirst, hpx, ih h]

theorem updateFirst_decomp {α : Type} (p : α → Bool) (f : α → α)
    (l : List α) (x : α) (h : l.find? p = some x) :
    ∃ l₁ l₂, l = l₁ ++ x :: l₂ ∧ (∀ z ∈ l₁, p z = false) ∧ p x = true ∧
      updateFirst p f l = l₁ ++ f x :: l₂ := by
  induction l with
  | nil => simp [List.find?] at h
  | cons y ys ih =>
    simp only [List.find?] at h
    cases hpy : p y with
    | true =>
      simp only [hpy] at h
      obtain rfl : y = x := by simpa using h
      exact ⟨[], ys, rfl, by simp, hpy, by simp [updateFirst, hpy]⟩
    | false =>
      simp only [hpy] at h
      obtain ⟨l₁, l₂, hl, hfa, hpx, hupd⟩ := ih h
      exact ⟨y :: l₁, l₂, by simp [hl], by simpa [hpy] using hfa, hpx,
        by simp [updateFirst, hpy, hupd]⟩

@[simp] theorem regionZoneUpdate_name (z : String) (g : Zone → Zone) (R : Region) :
    (regionZoneUpdate z g R).name = R.name := rfl

@[simp] theorem regionZoneUpdate_id (z : String) (g : Zone → Zone) (R : Region) :
    (regionZoneUpdate z g R).id = R.id := rfl

@[simp] theorem regionZoneUpdate_payload (z : String) (g : Zone → Zone) (R : Region) :
    (regionZoneUpdate z g R).payload = R.payload := rfl

@[simp] theorem regionZoneUpdate_children (z : String) (g : Zone → Zone) (R : Region) :
    (regionZoneUpdate z g R).children =
      updateFirst (fun Z => Z.name == z) g R.children := rfl

@[simp] theorem zoneAreaUpdate_name (a : String) (h : Area → Area) (Z : Zone) :
    (zoneAreaUpdate a h Z).name = Z.name := rfl

@[simp] theorem zoneAreaUpdate_id (a : String) (h : Area → Area) (Z : Zone) :
    (zoneAreaUpdate a h Z).id = Z.id := rfl

@[simp] theorem zoneAreaUpdate_payload (a : String) (h : Area → Area) (Z : Zone) :
    (zoneAreaUpdate a h Z).payload = Z.payload := rfl

@[simp] theorem zoneAreaUpdate_children (a : String) (h : Area → Area) (Z : Zone) :
    (zoneAreaUpdate a h Z).children =
      updateFirst (fun A => A.name == a) h Z.children := rfl

@[simp] theorem zoneSetChildren_name (cs : List Area) (Z : Zone) :
    (zoneSetChildren cs Z).name = Z.name := rfl

@[simp] theorem zoneSetChildren_children (cs : List Area) (Z : Zone) :
    (zoneSetChildren cs Z).children = cs := rfl

@[simp] theorem areaSetChildren_name (cs : List Point) (A : Area) :
    (areaSetChildren cs A).name = A.name := rfl

@[simp] theorem areaSetChildren_children (cs : List Point) (A : Area) :
    (areaSetChildren cs A).children = cs := rfl

@[simp] theorem regionMergeZones_name (now : Nat) (recs : List ZoneRec) (R : Region) :
    (regionMergeZones now recs R).name = R.name := rfl

/-- Finding by one name after updating the first element of another
name: the self case maps the updater over the result, any other name is
untouched. -/
theorem find?_name_updateFirst {α : Type} (nm : α → String) (n n' : String)
    (f : α → α) (hf : ∀ x, nm (f x) = nm x) (l : List α) :
    (updateFirst (fun x => nm x == n) f l).find? (fun x => nm x == n') =
      if n' = n then ((l.find? (fun x => nm x == n)).map f)
      else l.find? (fun x => nm x == n') := by
  by_cases h : n' = n
  · subst h
    rw [if_pos rfl]
    exact find?_updateFirst_self _ f l (fun x => by simp [hf])
  · rw [if_neg h]
    apply find?_updateFirst_disjoint
    · intro x
      simp [hf]
    · intro x hx
      simp only [beq_iff_eq] at hx
      simp [beq_eq_false_iff_ne, hx]
      exact fun hc => h hc.symm

/-- Locating a zone after updating one region's zone list. -/
theorem locateZone_regionUpdate (tree : List Region) (r z r' z' : String)
    (g : Zone → Zone) (hg : ∀ Z, (g Z).name = Z.name) :
    locateZone (updateFirst (fun R => R.name == r) (regionZoneUpdate z g) tree) r' z' =
      if r' = r then
        match tree.find? (fun R => R.name == r) with
        | none => none
        | some R =>
          if z' = z then (R.children.find? (fun Z => Z.name == z)).map g
          else R.children.find? (fun Z => Z.name == z')
      else locateZone tree r' z' := by
  unfold locateZone
  rw [find?_name_updateFirst (fun R => R.name) r r' (regionZoneUpdate z g)
    (fun R => regionZoneUpdate_name z g R) tree]
  by_cases h : r' = r
  · subst h
    rw [if_pos rfl, if_pos rfl]
    cases tree.find? (fun R => R.name == r') with
    | none => rfl
    | some R =>
      simp only [Option.map_some', regionZoneUpdate_children]
      rw [find?_name_updateFirst (fun Z => Z.name) z z' g hg R.children]
  · rw [if_neg h, if_neg h]

/-- Locating an area after `updateArea`: the targeted path maps the
update over the located area, every other path is untouched. -/
theorem locateArea_updateArea (tree : List Region) (r z a r' z' a' : String)
    (f : Area → Area) (hf : ∀ A, (f A).name = A.name) :
    locateArea (updateArea r z a f tree) r' z' a' =
      if r' = r then
        match tree.find? (fun R => R.name == r) with
        | none => none
        | some R =>
          if z' = z then
            match R.children.find? (fun Z => Z.name == z) with
            | none => none
            | some Z =>
              if a' = a then (Z.children.find? (fun A => A.name == a)).map f
              else Z.children.find? (fun A => A.name == a')
          else
            match R.children.find? (fun Z => Z.name == z') with
            | none => none
            | some Z => Z.children.find? (fun A => A.name == a')
      else locateArea tree r' z' a' := by
  unfold locateArea updateArea
  rw [find?_name_updateFirst (fun R => R.name) r r'
    (regionZoneUpdate z (zoneAreaUpdate a f))
    (fun R => regionZoneUpdate_name z (zoneAreaUpdate a f) R) tree]
  by_cases h : r' = r
  · subst h
    rw [if_pos rfl, if_pos rfl]
    cases tree.find? (fun R => R.name == r') with
    | none => rfl
    | some R =>
      simp only [Option.map_some', regionZoneUpdate_children]
      rw [find?_name_updateFirst (fun Z => Z.name) z z' (zoneAreaUpdate a f)
        (fun Z => zoneAreaUpdate_name a f Z) R.children]
      by_cases hz : z' = z
      · subst hz
        rw [if_pos rfl, if_pos rfl]
        cases R.children.find? (fun Z => Z.name == z') with
        | none => rfl
        | some Z =>
          simp only [Option.map_some', zoneAreaUpdate_children]
          rw [find?_name_updateFirst (fun A => A.name) a a' f hf Z.children]
      · rw [if_neg hz, if_neg hz]
  · rw [if_neg h, if_neg h]

theorem runAttempts_allQuota {ρ : Type}
    (parse : List Char → Except (List Char) (List ρ))
    (numKeys : Nat) :
    ∀ n calls key, ∃ key1,
      runAttempts parse (fun _ => ApiResult.errQuota) numKeys n calls key =
        (none, calls + n, key1) := by
  intro n
  induction n with
  | zero => intro calls key; exact ⟨key, rfl⟩
  | succ n ih =>
    intro calls key
    obtain ⟨key1, h⟩ := ih (calls + 1) (rotate_key numKeys key)
    refine ⟨key1, ?_⟩
    rw [show calls + (n + 1) = calls + 1 + n from by omega]
    simpa only [runAttempts, handleResponse] using h

theorem generationLoop_allQuota {ρ : Type}
    (parse : List Char → Except (List Char) (List ρ))
    (numKeys : Nat) :
    ∀ models calls key, ∃ key1,
      generationLoop parse (fun _ => ApiResult.errQuota) numKeys models calls key =
        ([], calls + models.length * (numKeys * 2), key1) := by
  intro models
  induction models with
  | nil => intro calls key; exact ⟨key, by simp [generationLoop]⟩
  | cons m ms ih =>
    intro calls key
    obtain ⟨keyA, hA⟩ := runAttempts_allQuota parse numKeys (numKeys * 2) calls key
    obtain ⟨key1, h1⟩ := ih (calls + numKeys * 2) keyA
    refine ⟨key1, ?_⟩
    simp only [generationLoop, hA, h1, List.length_cons]
    ring_nf

/-- Locating the targeted path after `updateArea` maps the update over
the located area. -/
theorem locateArea_updateArea_self (tree : List Region) (r z a : String)
    (f : Area → Area) (hf : ∀ A, (f A).name = A.name) :
    locateArea (updateArea r z a f tree) r z a = (locateArea tree r z a).map f := by
  rw [locateArea_updateArea tree r z a r z a f hf, if_pos rfl]
  unfold locateArea
  cases tree.find? (fun R => R.name == r) with
  | none => rfl
  | some R =>
    simp only [eq_self_iff_true, if_true]
    cases R.children.find? (fun Z => Z.name == z) with
    | none => rfl
    | some Z => simp

/-! ## Claim theorems -/

set_option maxRecDepth 30000 in
/-- C3 (counterexample): the point-level duplicate test is not symmetric.
`SequenceMatcher` picks, among equally long matching blocks, the one
that starts earliest in its *first* argument, and the recursion around
that block can then match a different number of characters.  After the
common 10-character prefix the remainders are `pzmr` / `rpym`: matching
`p` first (earliest in the first string) still lets `m` match later
(total 12 of 28, ratio 6/7 ≥ 0.85), while matching `r` first consumes
the whole second remainder (total 11 of 28, ratio 11/14 < 0.85).  So
the first name is judged a duplicate of the second but not conversely. -/
theorem is_similar_asymmetric_at_cpzmr :
    is_similar "ccccccccccpzmr" "ccccccccccrpym" = true ∧
      is_similar "ccccccccccrpym" "ccccccccccpzmr" = false := by
  decide

/-- C3 (amended): the duplicate judgement is symmetric exactly as far as
the underlying greedy match totals are: whenever
`SequenceMatcher(None,a,b)` and `SequenceMatcher(None,b,a)` match the
same number of characters, `is_similar a b = is_similar b a` (the
denominator of the ratio is symmetric).  The match totals themselves
are order-dependent in general (see the counterexample). -/
theorem is_similar_symm_of_matchTotal_eq (a b : String)
    (h : matchTotal a.data b.data = matchTotal b.data a.data) :
    is_similar a b = is_similar b a := by
  unfold is_similar
  rw [h, Nat.add_comm]

/-- C3 (witness): a concrete pair on which the amended symmetry theorem
applies. -/
theorem is_similar_symm_of_matchTotal_eq_witness :
    matchTotal ("ab").data ("ba").data = matchTotal ("ba").data ("ab").data ∧
      is_similar "ab" "ba" = is_similar "ba" "ab" :=
  ⟨by decide, is_similar_symm_of_matchTotal_eq "ab" "ba" (by decide)⟩

/-- C4: `check_duplicate` reports a duplicate iff the candidate is an
exact member of the existing-name set or some existing name has
similarity ratio at least `0.85 = 17/20` (the bound is inclusive: the
comparison is `17 * (|a| + |b|) ≤ 40 * matches`, i.e. `2M/T ≥ 17/20`),
and any reported match is an existing name. -/
theorem check_duplicate_isSome_iff (n : String) (xs : List String) :
    ((check_duplicate n xs).isSome ↔
      n ∈ xs ∨ ∃ e ∈ xs,
        17 * (n.data.length + e.data.length) ≤ 40 * matchTotal n.data e.data) ∧
      ∀ m, check_duplicate n xs = some m → m ∈ xs := by
  unfold check_duplicate
  by_cases hmem : n ∈ xs
  · simp [hmem]
  · simp only [hmem, if_false]
    constructor
    · rw [List.find?_isSome]
      simp [is_similar, hmem]
    · intro m hm
      exact List.mem_of_find?_eq_some hm

set_option maxRecDepth 30000 in
/-- C4 (witness): concrete evaluations discharging the statement's
inner hypothesis: a fuzzily-similar candidate is reported with the
matched existing name, which is a member of the set. -/
theorem check_duplicate_isSome_iff_witness :
    check_duplicate "ccccccccccpzmr" ["ccccccccccrpym"] = some "ccccccccccrpym" ∧
      "ccccccccccrpym" ∈ ["ccccccccccrpym"] :=
  ⟨by decide,
    (check_duplicate_isSome_iff "ccccccccccpzmr" ["ccccccccccrpym"]).2
      "ccccccccccrpym" (by decide)⟩

/-- C7: response handling.  (1) the zones/points pipeline hands the
JSON parser exactly the raw text stripped of enclosing code-fence
markers, and a parse exception is handled exactly like an API exception
of the same message classification (the call and `json.loads` share one
`try`); (2) a text wrapped in "```json" ... "```" has both markers
removed; (3) the areas pipeline strips the same markers (plus a bare
"```" opening marker) and then applies its closing-brace repair; (4)
within the areas loop the parser input is the stripped-and-repaired
text and a parse exception is classified like an API exception: quota
retries, anything else ends the unit; (5) in the fallback loop a parse
failure makes the attempt fail into retry/fallback --- a
quota-classified message rotates and retries, any other abandons the
model --- nothing escapes either request loop. -/
theorem response_parsing_pipeline {ρ : Type}
    (parse : List Char → Except (List Char) (List ρ)) :
    (∀ t : List Char, handleResponse parse (ApiResult.ok t) =
      match parse (strip_markdown (pyStrip t)) with
      | Except.ok l => if l.isEmpty then StepRes.failEmpty else StepRes.success l
      | Except.error msg =>
        handleResponse parse (classifiedApi (classifyError msg))) ∧
    (∀ s : List Char, strip_markdown (fenceJson ++ s ++ fence) = s) ∧
    (∀ s : List Char, startsWithFence (s ++ fence) = false →
      strip_markdown_areas (fenceJson ++ s ++ fence) =
        if endsWithBrace (pyStrip s) then s ++ String.toList "]" else s) ∧
    (∀ (api : Nat → ApiResult) (text : List Char) (n calls : Nat),
      api calls = ApiResult.ok text →
      areasAttempts parse api (n + 1) calls =
        match parse (strip_markdown_areas (pyStrip text)) with
        | Except.ok l => (l, calls + 1)
        | Except.error msg =>
          match classifyError msg with
          | ErrClass.quota => areasAttempts parse api n (calls + 1)
          | ErrClass.notFound => ([], calls + 1)
          | ErrClass.other => ([], calls + 1)) ∧
    (∀ t msg : List Char, parse (strip_markdown (pyStrip t)) = Except.error msg →
      handleResponse parse (ApiResult.ok t) =
        if classifyError msg = ErrClass.quota then StepRes.failQuota
        else StepRes.failNext) := by
  refine ⟨fun t => ?_, fun s => ?_, fun s hs => ?_,
    fun api text n calls h => ?_, fun t msg h => ?_⟩
  · cases hp : parse (strip_markdown (pyStrip t)) with
    | ok l => simp [handleResponse, hp]
    | error msg =>
      cases hc : classifyError msg <;>
        simp [handleResponse, hp, hc, classifiedApi]
  · have hpre : startsWithFenceJson (fenceJson ++ s ++ fence) = true := by
      simp only [startsWithFenceJson, decide_eq_true_eq]
      rw [List.append_assoc, show (7 : Nat) = fenceJson.length from rfl,
        List.take_left]
    have hdrop : (fenceJson ++ s ++ fence).drop 7 = s ++ fence := by
      rw [List.append_assoc, show (7 : Nat) = fenceJson.length from rfl,
        List.drop_left]
    have hlen : (s ++ fence).length - 3 = s.length := by
      simp only [List.length_append, show fence.length = 3 from rfl]
      omega
    have hsuf : endsWithFence (s ++ fence) = true := by
      simp only [endsWithFence, decide_eq_true_eq, hlen]
      exact List.drop_left s fence
    have htake : (s ++ fence).take ((s ++ fence).length - 3) = s := by
      rw [hlen]
      exact List.take_left s fence
    simp only [strip_markdown, hpre, if_true, hdrop, hsuf, htake]
  · have hpre : startsWithFenceJson (fenceJson ++ s ++ fence) = true := by
      simp only [startsWithFenceJson, decide_eq_true_eq]
      rw [List.append_assoc, show (7 : Nat) = fenceJson.length from rfl,
        List.take_left]
    have hdrop : (fenceJson ++ s ++ fence).drop 7 = s ++ fence := by
      rw [List.append_assoc, show (7 : Nat) = fenceJson.length from rfl,
        List.drop_left]
    have hlen : (s ++ fence).length - 3 = s.length := by
      simp only [List.length_append, show fence.length = 3 from rfl]
      omega
    have hsuf : endsWithFence (s ++ fence) = true := by
      simp only [endsWithFence, decide_eq_true_eq, hlen]
      exact List.drop_left s fence
    have htake : (s ++ fence).take ((s ++ fence).length - 3) = s := by
      rw [hlen]
      exact List.take_left s fence
    simp only [strip_markdown_areas, hpre, if_true, hdrop, hs, Bool.false_eq_true,
      if_false, hsuf, htake]
  · simp only [areasAttempts, h]
  · cases hc : classifyError msg with
    | quota => simp [handleResponse, h, hc]
    | notFound => simp [handleResponse, h, hc]
    | other => simp [handleResponse, h, hc]

/-- C7 (witness): the amended pipeline at concrete inputs: a fenced
areas response has both markers removed (no repair fires on a
bracket-terminated text), and a parse failure with a quota-free message
is abandoned like a generic API failure. -/
theorem response_parsing_pipeline_witness :
    strip_markdown_areas (fenceJson ++ String.toList "[]" ++ fence) =
      String.toList "[]" ∧
    handleResponse (ρ := Unit) (fun _ => Except.error (String.toList "boom"))
      (ApiResult.ok (String.toList "x")) = StepRes.failNext := by
  constructor
  · have h := (response_parsing_pipeline (ρ := Unit)
      (fun _ => Except.error (String.toList "boom"))).2.2.1 (String.toList "[]")
      (by decide)
    rw [h]
    decide
  · have h := (response_parsing_pipeline (ρ := Unit)
      (fun _ => Except.error (String.toList "boom"))).2.2.2.2 (String.toList "x")
      (String.toList "boom") rfl
    rw [h]
    decide

set_option maxRecDepth 4000 in
/-- C8: a missing input config file makes each of the three stage
invocations abort immediately: the in-memory tree is the untouched
loaded state, no produced entries are built, and the event trace is
empty --- no generation request, no tree write, no produced-list
write. -/
theorem missing_config_is_noop (genZ : String → List RegionRec)
    (genA : String → String → List AreaRec)
    (genP : String → String → String → List PointRec)
    (now : Nat) (mode : Mode) (tree0 : List Region) :
    zonesRun genZ now mode none tree0 = ⟨tree0, [], []⟩ ∧
      areasRun genA now mode none tree0 = ⟨tree0, [], []⟩ ∧
      pointsRun genP now mode none tree0 = ⟨tree0, [], []⟩ :=
  ⟨rfl, rfl, rfl⟩

/-- C10: overwrite mode is not atomic w.r.t. generation failure.  When
the targeted area has children and the generation call returns no
records, the unit still replaces the children by the empty list, the
tree really changes, and the changed tree is persisted by the unit's
incremental save --- the prior children are not restored. -/
theorem overwrite_clears_on_empty_generation
    (gen : String → String → String → List PointRec) (now : Nat)
    (tree : List Region) (g : List String) (u : AreaTarget) (A : Area)
    (hloc : locateArea tree u.region u.zone u.area = some A)
    (hne : A.children ≠ [])
    (hgen : gen u.region u.zone u.area = []) :
    locateArea (pointsUnit gen now Mode.overwrite tree g u).1
        u.region u.zone u.area = some {A with children := []} ∧
      (pointsUnit gen now Mode.overwrite tree g u).1 ≠ tree ∧
      Ev.saveTree (pointsUnit gen now Mode.overwrite tree g u).1 ∈
        (pointsUnit gen now Mode.overwrite tree g u).2.2 := by
  have hstep : pointsUnit gen now Mode.overwrite tree g u =
      (updateArea u.region u.zone u.area (areaSetChildren []) tree,
        removeNames g A.children,
        [Ev.genReq u.region u.zone u.area,
          Ev.saveTree (updateArea u.region u.zone u.area (areaSetChildren []) tree)]) := by
    unfold pointsUnit
    rw [hloc]
    simp [hne, hgen, attachPoints]
  have hlocA : locateArea (pointsUnit gen now Mode.overwrite tree g u).1
      u.region u.zone u.area = some {A with children := []} := by
    rw [hstep]
    have := locateArea_updateArea_self tree u.region u.zone u.area
      (areaSetChildren []) (fun A => rfl)
    rw [this, hloc]
    rfl
  refine ⟨hlocA, ?_, ?_⟩
  · intro hEq
    rw [hEq, hloc] at hlocA
    have h2 := Option.some.inj hlocA
    have : A.children = [] := by
      simpa using congrArg Area.children h2.symm
    exact hne this
  · rw [hstep]
    simp

/-- C10 (witness): a concrete populated area, overwrite mode, failing
generation: the area's single point is discarded and the cleared tree
is the one saved. -/
theorem overwrite_clears_on_empty_generation_witness :
    locateArea (pointsUnit (fun _ _ _ => ([] : List PointRec)) 0 Mode.overwrite
        [⟨"r1", "R", "", [⟨"z1", "Z", "", [⟨"a1", "A", "", [⟨"p1", "P", "", ""⟩]⟩]⟩]⟩]
        ["P"] ⟨"R", "Z", "A"⟩).1 "R" "Z" "A" = some ⟨"a1", "A", "", []⟩ ∧
      (pointsUnit (fun _ _ _ => ([] : List PointRec)) 0 Mode.overwrite
        [⟨"r1", "R", "", [⟨"z1", "Z", "", [⟨"a1", "A", "", [⟨"p1", "P", "", ""⟩]⟩]⟩]⟩]
        ["P"] ⟨"R", "Z", "A"⟩).1 ≠
        [⟨"r1", "R", "", [⟨"z1", "Z", "", [⟨"a1", "A", "", [⟨"p1", "P", "", ""⟩]⟩]⟩]⟩] ∧
      Ev.saveTree (pointsUnit (fun _ _ _ => ([] : List PointRec)) 0 Mode.overwrite
          [⟨"r1", "R", "", [⟨"z1", "Z", "", [⟨"a1", "A", "", [⟨"p1", "P", "", ""⟩]⟩]⟩]⟩]
          ["P"] ⟨"R", "Z", "A"⟩).1 ∈
        (pointsUnit (fun _ _ _ => ([] : List PointRec)) 0 Mode.overwrite
          [⟨"r1", "R", "", [⟨"z1", "Z", "", [⟨"a1", "A", "", [⟨"p1", "P", "", ""⟩]⟩]⟩]⟩]
          ["P"] ⟨"R", "Z", "A"⟩).2.2 :=
  overwrite_clears_on_empty_generation (fun _ _ _ => ([] : List PointRec)) 0
    [⟨"r1", "R", "", [⟨"z1", "Z", "", [⟨"a1", "A", "", [⟨"p1", "P", "", ""⟩]⟩]⟩]⟩]
    ["P"] ⟨"R", "Z", "A"⟩ ⟨"a1", "A", "", [⟨"p1", "P", "", ""⟩]⟩
    (by decide) (by decide) rfl

/-- C5: frame property of overwrite mode on the points stage.  For a
unit `U` whose path locates area `A`: the unit is exactly "dedup the
generated records against the global set with `A`'s discarded
children's names removed (the removal precedes generation/attachment),
attach, replace `A`'s children, save"; every path naming a different
region, zone or area locates the identical node before and after (ids
included); the targeted area keeps its id, name and payload; and the
region and zone nodes on the path keep their id, name and payload. -/
theorem overwrite_mutates_only_target
    (gen : String → String → String → List PointRec) (now : Nat)
    (tree : List Region) (g : List String) (u : AreaTarget) (A : Area)
    (hloc : locateArea tree u.region u.zone u.area = some A) :
    pointsUnit gen now Mode.overwrite tree g u =
      (updateArea u.region u.zone u.area
          (areaSetChildren (attachPoints now (gen u.region u.zone u.area) []
            (removeNames g A.children)).1) tree,
        (attachPoints now (gen u.region u.zone u.area) []
          (removeNames g A.children)).2,
        [Ev.genReq u.region u.zone u.area,
          Ev.saveTree (updateArea u.region u.zone u.area
            (areaSetChildren (attachPoints now (gen u.region u.zone u.area) []
              (removeNames g A.children)).1) tree)]) ∧
      (∀ r' z' a', r' ≠ u.region →
        locateArea (pointsUnit gen now Mode.overwrite tree g u).1 r' z' a' =
          locateArea tree r' z' a') ∧
      (∀ z' a', z' ≠ u.zone →
        locateArea (pointsUnit gen now Mode.overwrite tree g u).1 u.region z' a' =
          locateArea tree u.region z' a') ∧
      (∀ a', a' ≠ u.area →
        locateArea (pointsUnit gen now Mode.overwrite tree g u).1 u.region u.zone a' =
          locateArea tree u.region u.zone a') ∧
      locateArea (pointsUnit gen now Mode.overwrite tree g u).1
          u.region u.zone u.area =
        some {A with children := (attachPoints now (gen u.region u.zone u.area) []
          (removeNames g A.children)).1} ∧
      ((pointsUnit gen now Mode.overwrite tree g u).1.find?
          (fun R => R.name == u.region)).map (fun R => (R.id, R.name, R.payload)) =
        (tree.find? (fun R => R.name == u.region)).map
          (fun R => (R.id, R.name, R.payload)) ∧
      (locateZone (pointsUnit gen now Mode.overwrite tree g u).1
          u.region u.zone).map (fun Z => (Z.id, Z.name, Z.payload)) =
        (locateZone tree u.region u.zone).map (fun Z => (Z.id, Z.name, Z.payload)) := by
  rcases hP : attachPoints now (gen u.region u.zone u.area) []
    (removeNames g A.children) with ⟨pts, g2⟩
  have hstep : pointsUnit gen now Mode.overwrite tree g u =
      (updateArea u.region u.zone u.area (areaSetChildren pts) tree, g2,
        [Ev.genReq u.region u.zone u.area,
          Ev.saveTree (updateArea u.region u.zone u.area (areaSetChildren pts) tree)]) := by
    unfold pointsUnit
    rw [hloc]
    by_cases hne : A.children = []
    · rw [hne] at hP
      simp only [removeNames, List.foldl_nil] at hP
      simp [hne, removeNames, hP]
    · simp [hne, hP]
  have hstep1 : (pointsUnit gen now Mode.overwrite tree g u).1 =
      updateArea u.region u.zone u.area (areaSetChildren pts) tree := by
    rw [hstep]
  refine ⟨?_, ?_, ?_, ?_, ?_, ?_, ?_⟩
  · exact hstep.trans rfl
  · intro r' z' a' hr
    rw [hstep1, locateArea_updateArea tree u.region u.zone u.area r' z' a'
      (areaSetChildren pts) (fun A0 => areaSetChildren_name pts A0), if_neg hr]
  · intro z' a' hz
    rw [hstep1, locateArea_updateArea tree u.region u.zone u.area u.region z' a'
      (areaSetChildren pts) (fun A0 => areaSetChildren_name pts A0), if_pos rfl]
    simp only [if_neg hz]
    rfl
  · intro a' ha
    rw [hstep1, locateArea_updateArea tree u.region u.zone u.area u.region u.zone a'
      (areaSetChildren pts) (fun A0 => areaSetChildren_name pts A0), if_pos rfl]
    simp only [eq_self_iff_true, if_true, if_neg ha]
    rfl
  · rw [hstep1, locateArea_updateArea_self tree u.region u.zone u.area
      (areaSetChildren pts) (fun A0 => areaSetChildren_name pts A0), hloc]
    rfl
  · rw [hstep1]
    unfold updateArea
    rw [find?_name_updateFirst (fun R => R.name) u.region u.region
      (regionZoneUpdate u.zone (zoneAreaUpdate u.area (areaSetChildren pts)))
      (fun R => regionZoneUpdate_name _ _ R) tree, if_pos rfl]
    cases tree.find? (fun R => R.name == u.region) with
    | none => rfl
    | some R => rfl
  · rw [hstep1]
    unfold updateArea
    rw [locateZone_regionUpdate tree u.region u.zone u.region u.zone
      (zoneAreaUpdate u.area (areaSetChildren pts))
      (fun Z => zoneAreaUpdate_name _ _ Z), if_pos rfl]
    unfold locateZone
    cases tree.find? (fun R => R.name == u.region) with
    | none => rfl
    | some R =>
      simp only [eq_self_iff_true, if_true]
      cases R.children.find? (fun Z => Z.name == u.zone) with
      | none => rfl
      | some Z => rfl

/-- C5 (witness): on a two-region tree, overwriting the area of the
first region leaves the path of the second region locating the very
same node. -/
theorem overwrite_mutates_only_target_witness :
    locateArea (pointsUnit (fun _ _ _ => [(⟨"Q", "d"⟩ : PointRec)]) 0 Mode.overwrite
        [⟨"r1", "R", "", [⟨"z1", "Z", "", [⟨"a1", "A", "", [⟨"p1", "P", "", ""⟩]⟩]⟩]⟩,
          ⟨"r2", "R2", "", [⟨"z2", "Z2", "", [⟨"a2", "A2", "", []⟩]⟩]⟩]
        ["P"] ⟨"R", "Z", "A"⟩).1 "R2" "Z2" "A2" =
      locateArea
        [⟨"r1", "R", "", [⟨"z1", "Z", "", [⟨"a1", "A", "", [⟨"p1", "P", "", ""⟩]⟩]⟩]⟩,
          ⟨"r2", "R2", "", [⟨"z2", "Z2", "", [⟨"a2", "A2", "", []⟩]⟩]⟩]
        "R2" "Z2" "A2" :=
  ((overwrite_mutates_only_target (fun _ _ _ => [(⟨"Q", "d"⟩ : PointRec)]) 0
    [⟨"r1", "R", "", [⟨"z1", "Z", "", [⟨"a1", "A", "", [⟨"p1", "P", "", ""⟩]⟩]⟩]⟩,
      ⟨"r2", "R2", "", [⟨"z2", "Z2", "", [⟨"a2", "A2", "", []⟩]⟩]⟩]
    ["P"] ⟨"R", "Z", "A"⟩ ⟨"a1", "A", "", [⟨"p1", "P", "", ""⟩]⟩
    (by decide)).2.1) "R2" "Z2" "A2" (by decide)

/-- C9 (counterexample): sibling-name uniqueness is *not* preserved
when one generation batch contains the same name twice: the merge loops
compute the sibling-name set once before the loop and never add the
names they append, so a batch `["Onna", "Onna"]` merged into an empty
zone yields two same-named area siblings. -/
theorem sibling_uniqueness_counterexample :
    siblingNamesOk [⟨"r1", "R", "", [⟨"z1", "Z", "", []⟩]⟩] = true ∧
      siblingNamesOk (areasRun
        (fun _ _ => [(⟨"Onna", "x"⟩ : AreaRec), ⟨"Onna", "y"⟩]) 0 Mode.append
        (some [⟨"R", "Z"⟩]) [⟨"r1", "R", "", [⟨"z1", "Z", "", []⟩]⟩]).tree = false := by
  decide

/-- The merge loops (`mergeZones` / `mergeAreas`) test candidate names
only against the set computed before the loop, so they are fold-free:
the existing children followed by the non-colliding records. -/
theorem foldl_if_append {α β : Type} (c : β → Bool) (n : β → α) :
    ∀ (recs : List β) (acc : List α),
      recs.foldl (fun acc z => if c z then acc else acc ++ [n z]) acc =
        acc ++ (recs.filter (fun z => !c z)).map n := by
  intro recs
  induction recs with
  | nil => intro acc; simp
  | cons r rs ih =>
    intro acc
    cases hc : c r with
    | true => simp [hc, ih]
    | false => simp [hc, ih, List.append_assoc]

theorem mem_updateFirst {α : Type} (p : α → Bool) (f : α → α) (l : List α)
    (y : α) (h : y ∈ updateFirst p f l) : y ∈ l ∨ ∃ x, x ∈ l ∧ y = f x := by
  induction l with
  | nil => simp [updateFirst] at h
  | cons x xs ih =>
    cases hp : p x with
    | true =>
      simp only [updateFirst, hp, if_true] at h
      rcases List.mem_cons.mp h with h1 | h1
      · exact Or.inr ⟨x, List.mem_cons_self x xs, h1⟩
      · exact Or.inl (List.mem_cons_of_mem x h1)
    | false =>
      simp only [updateFirst, hp, Bool.false_eq_true, if_false] at h
      rcases List.mem_cons.mp h with h1 | h1
      · exact Or.inl (h1 ▸ List.mem_cons_self x xs)
      · rcases ih h1 with h2 | ⟨x1, hx1, hy⟩
        · exact Or.inl (List.mem_cons_of_mem x h2)
        · exact Or.inr ⟨x1, List.mem_cons_of_mem x hx1, hy⟩

theorem map_updateFirst_eq {α β : Type} (p : α → Bool) (f : α → α) (g : α → β)
    (l : List α) (hg : ∀ x, g (f x) = g x) :
    (updateFirst p f l).map g = l.map g := by
  induction l with
  | nil => rfl
  | cons x xs ih =>
    cases hp : p x with
    | true => simp [updateFirst, hp, hg]
    | false => simp [updateFirst, hp, ih]

theorem mergeZones_eq (now : Nat) (ex : List Zone) (recs : List ZoneRec) :
    mergeZones now ex recs = ex ++ (recs.filter
      (fun z => !((ex.map (fun Z => Z.name)).contains z.name))).map
      (fun z => ⟨mkZoneIdName now z.name, z.name, z.payload, []⟩) := by
  unfold mergeZones
  exact foldl_if_append _ _ recs ex

theorem mergeAreas_eq (now : Nat) (ex : List Area) (recs : List AreaRec) :
    mergeAreas now ex recs = ex ++ (recs.filter
      (fun a => !((ex.map (fun A => A.name)).contains a.name))).map
      (fun a => ⟨mkAreaId now a.name, a.name, a.payload, []⟩) := by
  unfold mergeAreas
  exact foldl_if_append _ _ recs ex

theorem nodup_names_mergeZones (now : Nat) (ex : List Zone) (recs : List ZoneRec)
    (hex : (ex.map (fun Z => Z.name)).Nodup)
    (hrecs : (recs.map (fun z => z.name)).Nodup) :
    ((mergeZones now ex recs).map (fun Z => Z.name)).Nodup := by
  rw [mergeZones_eq, List.map_append, List.map_map]
  refine List.Nodup.append hex ?_ ?_
  · exact hrecs.sublist ((List.filter_sublist recs).map _)
  · intro a ha hb
    simp only [List.mem_map, Function.comp] at hb
    rcases hb with ⟨z, hz, rfl⟩
    rcases List.mem_filter.mp hz with ⟨_, hpred⟩
    simp only [Bool.not_eq_true'] at hpred
    have : z.name ∈ ex.map (fun Z => Z.name) := ha
    rw [← List.elem_iff] at this
    simp [List.contains] at hpred this
    rcases this with ⟨x, hx, hxe⟩
    exact hpred x hx hxe

theorem nodup_names_mergeAreas (now : Nat) (ex : List Area) (recs : List AreaRec)
    (hex : (ex.map (fun A => A.name)).Nodup)
    (hrecs : (recs.map (fun a => a.name)).Nodup) :
    ((mergeAreas now ex recs).map (fun A => A.name)).Nodup := by
  rw [mergeAreas_eq, List.map_append, List.map_map]
  refine List.Nodup.append hex ?_ ?_
  · exact hrecs.sublist ((List.filter_sublist recs).map _)
  · intro a ha hb
    simp only [List.mem_map, Function.comp] at hb
    rcases hb with ⟨z, hz, rfl⟩
    rcases List.mem_filter.mp hz with ⟨_, hpred⟩
    simp only [Bool.not_eq_true'] at hpred
    have : z.name ∈ ex.map (fun A => A.name) := ha
    rw [← List.elem_iff] at this
    simp [List.contains] at hpred this
    rcases this with ⟨x, hx, hxe⟩
    exact hpred x hx hxe

theorem mem_mergeZones (now : Nat) (ex : List Zone) (recs : List ZoneRec)
    (Z : Zone) (h : Z ∈ mergeZones now ex recs) : Z ∈ ex ∨ Z.children = [] := by
  rw [mergeZones_eq] at h
  rcases List.mem_append.mp h with h1 | h1
  · exact Or.inl h1
  · rcases List.mem_map.mp h1 with ⟨z, _, rfl⟩
    exact Or.inr rfl

theorem zoneNamesNodup_filter (tree : List Region) (p : Region → Bool)
    (h : zoneNamesNodup tree) : zoneNamesNodup (tree.filter p) :=
  fun R hR => h R (List.mem_of_mem_filter hR)

theorem areaNamesNodup_filter (tree : List Region) (p : Region → Bool)
    (h : areaNamesNodup tree) : areaNamesNodup (tree.filter p) :=
  fun R hR => h R (List.mem_of_mem_filter hR)

theorem newRegionNode_child_names (now : Nat) (rec : RegionRec) :
    (newRegionNode now rec).children.map (fun Z => Z.name) =
      rec.children.map (fun z => z.name) := by
  unfold newRegionNode
  rw [List.map_map]
  have : rec.children.enum.map
      ((fun Z => Z.name) ∘ (fun p : Nat × ZoneRec =>
        (⟨mkZoneIdIdx now p.1, p.2.name, p.2.payload, []⟩ : Zone))) =
      (rec.children.enum.map Prod.snd).map (fun z => z.name) := by
    rw [List.map_map]
    rfl
  rw [this, List.enum_map_snd]

theorem nodupInv_append_newRegion (tree : List Region) (now : Nat)
    (rec : RegionRec) (h1 : zoneNamesNodup tree) (h2 : areaNamesNodup tree)
    (hrec : (rec.children.map (fun z => z.name)).Nodup) :
    zoneNamesNodup (tree ++ [newRegionNode now rec]) ∧
      areaNamesNodup (tree ++ [newRegionNode now rec]) := by
  constructor
  · intro R hR
    rcases List.mem_append.mp hR with hmem | hmem
    · exact h1 R hmem
    · have : R = newRegionNode now rec := by simpa using hmem
      rw [this, newRegionNode_child_names]
      exact hrec
  · intro R hR Z hZ
    rcases List.mem_append.mp hR with hmem | hmem
    · exact h2 R hmem Z hZ
    · have hRn : R = newRegionNode now rec := by simpa using hmem
      rw [hRn] at hZ
      unfold newRegionNode at hZ
      simp only [List.mem_map] at hZ
      rcases hZ with ⟨p, _, hp⟩
      rw [← hp]
      simp

theorem nodupInv_mergeUpdate (tree : List Region) (now : Nat) (r : String)
    (recs : List ZoneRec) (h1 : zoneNamesNodup tree) (h2 : areaNamesNodup tree)
    (hrecs : (recs.map (fun z => z.name)).Nodup) :
    zoneNamesNodup (updateFirst (fun R => R.name == r)
        (regionMergeZones now recs) tree) ∧
      areaNamesNodup (updateFirst (fun R => R.name == r)
        (regionMergeZones now recs) tree) := by
  constructor
  · intro R' hR'
    rcases mem_updateFirst _ _ _ _ hR' with hmem | ⟨R, hR, hR'eq⟩
    · exact h1 R' hmem
    · rw [hR'eq]
      exact nodup_names_mergeZones now R.children recs (h1 R hR) hrecs
  · intro R' hR' Z' hZ'
    rcases mem_updateFirst _ _ _ _ hR' with hmem | ⟨R, hR, hR'eq⟩
    · exact h2 R' hmem Z' hZ'
    · rw [hR'eq] at hZ'
      rcases mem_mergeZones now R.children recs Z' hZ' with hmem2 | hempty
      · exact h2 R hR Z' hmem2
      · rw [hempty]
        simp

theorem nodupInv_updateZoneChildren (tree : List Region) (r z : String)
    (cs : List Area) (h1 : zoneNamesNodup tree) (h2 : areaNamesNodup tree)
    (hcs : (cs.map (fun A => A.name)).Nodup) :
    zoneNamesNodup (updateZoneChildren r z cs tree) ∧
      areaNamesNodup (updateZoneChildren r z cs tree) := by
  constructor
  · intro R' hR'
    rcases mem_updateFirst _ _ _ _ hR' with hmem | ⟨R, hR, hR'eq⟩
    · exact h1 R' hmem
    · rw [hR'eq, regionZoneUpdate_children,
        map_updateFirst_eq _ _ _ _ (fun Z => zoneSetChildren_name cs Z)]
      exact h1 R hR
  · intro R' hR' Z' hZ'
    rcases mem_updateFirst _ _ _ _ hR' with hmem | ⟨R, hR, hR'eq⟩
    · exact h2 R' hmem Z' hZ'
    · rw [hR'eq, regionZoneUpdate_children] at hZ'
      rcases mem_updateFirst _ _ _ _ hZ' with hmem2 | ⟨Z, hZ, hZ'eq⟩
      · exact h2 R hR Z' hmem2
      · rw [hZ'eq]
        simpa using hcs

theorem nodupInv_updateArea (tree : List Region) (r z a : String)
    (f : Area → Area) (h1 : zoneNamesNodup tree) (h2 : areaNamesNodup tree)
    (hf : ∀ A, (f A).name = A.name) :
    zoneNamesNodup (updateArea r z a f tree) ∧
      areaNamesNodup (updateArea r z a f tree) := by
  constructor
  · intro R' hR'
    rcases mem_updateFirst _ _ _ _ hR' with hmem | ⟨R, hR, hR'eq⟩
    · exact h1 R' hmem
    · rw [hR'eq, regionZoneUpdate_children,
        map_updateFirst_eq _ _ _ _ (fun Z => zoneAreaUpdate_name _ _ Z)]
      exact h1 R hR
  · intro R' hR' Z' hZ'
    rcases mem_updateFirst _ _ _ _ hR' with hmem | ⟨R, hR, hR'eq⟩
    · exact h2 R' hmem Z' hZ'
    · rw [hR'eq, regionZoneUpdate_children] at hZ'
      rcases mem_updateFirst _ _ _ _ hZ' with hmem2 | ⟨Z, hZ, hZ'eq⟩
      · exact h2 R hR Z' hmem2
      · rw [hZ'eq, zoneAreaUpdate_children,
          map_updateFirst_eq _ _ _ _ (fun A => hf A)]
        exact h2 R hR Z hZ

theorem zoneNamesNodup_nil : zoneNamesNodup [] :=
  fun R hR => absurd hR (List.not_mem_nil R)

theorem areaNamesNodup_nil : areaNamesNodup [] :=
  fun R hR => absurd hR (List.not_mem_nil R)

theorem locateZone_mem (tree : List Region) (r z : String) (Z : Zone)
    (h : locateZone tree r z = some Z) : ∃ R ∈ tree, Z ∈ R.children := by
  unfold locateZone at h
  cases hf : tree.find? (fun R => R.name == r) with
  | none => simp [hf] at h
  | some R =>
    simp only [hf] at h
    exact ⟨R, List.mem_of_find?_eq_some hf, List.mem_of_find?_eq_some h⟩

theorem zonesUnit_preserves (gen : String → List RegionRec) (now : Nat)
    (mode : Mode) (tree : List Region) (r : String)
    (h1 : zoneNamesNodup tree) (h2 : areaNamesNodup tree)
    (hg : ∀ rec ∈ gen r, (rec.children.map (fun z => z.name)).Nodup) :
    zoneNamesNodup (zonesUnit gen now mode tree r).1 ∧
      areaNamesNodup (zonesUnit gen now mode tree r).1 := by
  cases mode with
  | append =>
    cases hex : tree.find? (fun R => R.name == r) with
    | some R =>
      simp [zonesUnit, hex]
      exact ⟨h1, h2⟩
    | none =>
      cases hgen : gen r with
      | nil =>
        simp [zonesUnit, hex, hgen]
        exact ⟨h1, h2⟩
      | cons rec rest =>
        simp [zonesUnit, hex, hgen]
        exact nodupInv_append_newRegion tree now rec h1 h2 (hg rec (by simp [hgen]))
  | overwrite =>
    cases hex : tree.find? (fun R => R.name == r) with
    | some R =>
      cases hgen : gen r with
      | nil =>
        simp [zonesUnit, hex, hgen]
        exact ⟨zoneNamesNodup_filter tree _ h1, areaNamesNodup_filter tree _ h2⟩
      | cons rec rest =>
        simp [zonesUnit, hex, hgen]
        exact nodupInv_append_newRegion (tree.filter _) now rec
          (zoneNamesNodup_filter tree _ h1) (areaNamesNodup_filter tree _ h2)
          (hg rec (by simp [hgen]))
    | none =>
      cases hgen : gen r with
      | nil =>
        simp [zonesUnit, hex, hgen]
        exact ⟨h1, h2⟩
      | cons rec rest =>
        simp [zonesUnit, hex, hgen]
        exact nodupInv_append_newRegion tree now rec h1 h2 (hg rec (by simp [hgen]))
  | clean =>
    cases hex : tree.find? (fun R => R.name == r) with
    | some R =>
      cases hgen : gen r with
      | nil =>
        simp [zonesUnit, hex, hgen]
        exact ⟨h1, h2⟩
      | cons rec rest =>
        simp [zonesUnit, hex, hgen]
        exact nodupInv_mergeUpdate tree now r rec.children h1 h2
          (hg rec (by simp [hgen]))
    | none =>
      cases hgen : gen r with
      | nil =>
        simp [zonesUnit, hex, hgen]
        exact ⟨h1, h2⟩
      | cons rec rest =>
        simp [zonesUnit, hex, hgen]
        exact nodupInv_append_newRegion tree now rec h1 h2 (hg rec (by simp [hgen]))

theorem areasUnit_preserves (gen : String → String → List AreaRec) (now : Nat)
    (mode : Mode) (tree : List Region) (u : ZoneTarget)
    (h1 : zoneNamesNodup tree) (h2 : areaNamesNodup tree)
    (hg : ((gen u.region u.zone).map (fun a => a.name)).Nodup) :
    zoneNamesNodup (areasUnit gen now mode tree u).1 ∧
      areaNamesNodup (areasUnit gen now mode tree u).1 := by
  unfold areasUnit
  cases hz : locateZone tree u.region u.zone with
  | none => exact ⟨h1, h2⟩
  | some Z =>
    have hZch : (Z.children.map (fun A => A.name)).Nodup := by
      rcases locateZone_mem tree u.region u.zone Z hz with ⟨R, hR, hZm⟩
      exact h2 R hR Z hZm
    dsimp only
    by_cases hskip : mode = Mode.append ∧ Z.children ≠ []
    · rw [if_pos hskip]
      exact ⟨h1, h2⟩
    · rw [if_neg hskip]
      have hex1 : ((if mode = Mode.overwrite ∧ Z.children ≠ [] then []
          else Z.children).map (fun A => A.name)).Nodup := by
        split
        · simp
        · exact hZch
      exact nodupInv_updateZoneChildren tree u.region u.zone _ h1 h2
        (nodup_names_mergeAreas now _ (gen u.region u.zone) hex1 hg)

theorem pointsUnit_preserves (gen : String → String → String → List PointRec)
    (now : Nat) (mode : Mode) (tree : List Region) (g : List String)
    (u : AreaTarget) (h1 : zoneNamesNodup tree) (h2 : areaNamesNodup tree) :
    zoneNamesNodup (pointsUnit gen now mode tree g u).1 ∧
      areaNamesNodup (pointsUnit gen now mode tree g u).1 := by
  unfold pointsUnit
  cases hloc : locateArea tree u.region u.zone u.area with
  | none => exact ⟨h1, h2⟩
  | some A =>
    dsimp only
    by_cases hskip : mode = Mode.append ∧ A.children ≠ []
    · rw [if_pos hskip]
      exact ⟨h1, h2⟩
    · rw [if_neg hskip]
      exact nodupInv_updateArea tree u.region u.zone u.area _ h1 h2
        (fun A0 => areaSetChildren_name _ A0)

theorem zonesRun_foldl_preserves (gen : String → List RegionRec) (now : Nat)
    (mode : Mode)
    (hg : ∀ r, ∀ rec ∈ gen r, (rec.children.map (fun z => z.name)).Nodup) :
    ∀ (regions : List String) (st : ZStageState),
      zoneNamesNodup st.tree → areaNamesNodup st.tree →
      zoneNamesNodup ((regions.foldl (zonesStep gen now mode) st).tree) ∧
        areaNamesNodup ((regions.foldl (zonesStep gen now mode) st).tree) := by
  intro regions
  induction regions with
  | nil => intro st h1 h2; exact ⟨h1, h2⟩
  | cons r rs ih =>
    intro st h1 h2
    rw [List.foldl_cons]
    rcases zonesUnit_preserves gen now mode st.tree r h1 h2 (hg r) with ⟨h1s, h2s⟩
    exact ih (zonesStep gen now mode st r) h1s h2s

theorem areasRun_foldl_preserves (gen : String → String → List AreaRec)
    (now : Nat) (mode : Mode)
    (hg : ∀ r z, ((gen r z).map (fun a => a.name)).Nodup) :
    ∀ (targets : List ZoneTarget) (st : AStageState),
      zoneNamesNodup st.tree → areaNamesNodup st.tree →
      zoneNamesNodup ((targets.foldl (areasStep gen now mode) st).tree) ∧
        areaNamesNodup ((targets.foldl (areasStep gen now mode) st).tree) := by
  intro targets
  induction targets with
  | nil => intro st h1 h2; exact ⟨h1, h2⟩
  | cons u us ih =>
    intro st h1 h2
    rw [List.foldl_cons]
    rcases areasUnit_preserves gen now mode st.tree u h1 h2 (hg u.region u.zone)
      with ⟨h1s, h2s⟩
    exact ih (areasStep gen now mode st u) h1s h2s

theorem pointsRun_foldl_preserves (gen : String → String → String → List PointRec)
    (now : Nat) (mode : Mode) :
    ∀ (targets : List AreaTarget) (st : PStageState),
      zoneNamesNodup st.tree → areaNamesNodup st.tree →
      zoneNamesNodup ((targets.foldl (pointsStep gen now mode) st).tree) ∧
        areaNamesNodup ((targets.foldl (pointsStep gen now mode) st).tree) := by
  intro targets
  induction targets with
  | nil => intro st h1 h2; exact ⟨h1, h2⟩
  | cons u us ih =>
    intro st h1 h2
    rw [List.foldl_cons]
    rcases pointsUnit_preserves gen now mode st.tree st.global u h1 h2
      with ⟨h1s, h2s⟩
    exact ih (pointsStep gen now mode st u) h1s h2s

/-- C9 (amended): sibling-name uniqueness at Region scope (zone names
per region) and Zone scope (area names per zone) is preserved by every
stage run *provided each generation batch is itself free of duplicate
names*.  Without that proviso the invariant fails (see the
counterexample): the merge loops freeze the sibling-name set before
iterating, so they only guard against collisions with pre-existing
children, not within one batch. -/
theorem sibling_uniqueness_amended
    (genZ : String → List RegionRec) (genA : String → String → List AreaRec)
    (genP : String → String → String → List PointRec) (now : Nat) (mode : Mode)
    (cfgZ : Option (List String)) (cfgA : Option (List ZoneTarget))
    (cfgP : Option (List AreaTarget)) (tree0 : List Region)
    (h1 : zoneNamesNodup tree0) (h2 : areaNamesNodup tree0)
    (hgZ : ∀ r, ∀ rec ∈ genZ r, (rec.children.map (fun z => z.name)).Nodup)
    (hgA : ∀ r z, ((genA r z).map (fun a => a.name)).Nodup) :
    (zoneNamesNodup (zonesRun genZ now mode cfgZ tree0).tree ∧
      areaNamesNodup (zonesRun genZ now mode cfgZ tree0).tree) ∧
      (zoneNamesNodup (areasRun genA now mode cfgA tree0).tree ∧
        areaNamesNodup (areasRun genA now mode cfgA tree0).tree) ∧
      (zoneNamesNodup (pointsRun genP now mode cfgP tree0).tree ∧
        areaNamesNodup (pointsRun genP now mode cfgP tree0).tree) := by
  have hinit1 : zoneNamesNodup (if mode = Mode.clean then [] else tree0) := by
    split
    · exact zoneNamesNodup_nil
    · exact h1
  have hinit2 : areaNamesNodup (if mode = Mode.clean then [] else tree0) := by
    split
    · exact areaNamesNodup_nil
    · exact h2
  refine ⟨?_, ?_, ?_⟩
  · cases cfgZ with
    | none => exact ⟨h1, h2⟩
    | some regions =>
      have h := zonesRun_foldl_preserves genZ now mode hgZ regions
        ⟨if mode = Mode.clean then [] else tree0, [], []⟩ hinit1 hinit2
      simpa [zonesRun] using h
  · cases cfgA with
    | none => exact ⟨h1, h2⟩
    | some targets =>
      have h := areasRun_foldl_preserves genA now mode hgA targets
        ⟨if mode = Mode.clean then [] else tree0, [], []⟩ hinit1 hinit2
      simpa [areasRun] using h
  · cases cfgP with
    | none => exact ⟨h1, h2⟩
    | some targets =>
      have h := pointsRun_foldl_preserves genP now mode targets
        ⟨if mode = Mode.clean then [] else tree0,
          pointNames (if mode = Mode.clean then [] else tree0), []⟩ hinit1 hinit2
      simpa [pointsRun] using h

/-- C9 (witness): the amended invariant applied to a concrete
one-region tree with duplicate-free batches. -/
theorem sibling_uniqueness_amended_witness :
    (zoneNamesNodup (zonesRun (fun _ => []) 0 Mode.append (some ["R"])
        [⟨"r1", "R", "", [⟨"z1", "Z", "", []⟩]⟩]).tree ∧
      areaNamesNodup (zonesRun (fun _ => []) 0 Mode.append (some ["R"])
        [⟨"r1", "R", "", [⟨"z1", "Z", "", []⟩]⟩]).tree) ∧
      (zoneNamesNodup (areasRun (fun _ _ => []) 0 Mode.append (some [⟨"R", "Z"⟩])
          [⟨"r1", "R", "", [⟨"z1", "Z", "", []⟩]⟩]).tree ∧
        areaNamesNodup (areasRun (fun _ _ => []) 0 Mode.append (some [⟨"R", "Z"⟩])
          [⟨"r1", "R", "", [⟨"z1", "Z", "", []⟩]⟩]).tree) ∧
      (zoneNamesNodup (pointsRun (fun _ _ _ => []) 0 Mode.append
          (some [⟨"R", "Z", "A"⟩]) [⟨"r1", "R", "", [⟨"z1", "Z", "", []⟩]⟩]).tree ∧
        areaNamesNodup (pointsRun (fun _ _ _ => []) 0 Mode.append
          (some [⟨"R", "Z", "A"⟩]) [⟨"r1", "R", "", [⟨"z1", "Z", "", []⟩]⟩]).tree) :=
  sibling_uniqueness_amended (fun _ => []) (fun _ _ => []) (fun _ _ _ => []) 0
    Mode.append (some ["R"]) (some [⟨"R", "Z"⟩]) (some [⟨"R", "Z", "A"⟩])
    [⟨"r1", "R", "", [⟨"z1", "Z", "", []⟩]⟩]
    (by unfold zoneNamesNodup; decide) (by unfold areaNamesNodup; decide)
    (fun r rec h => absurd h (List.not_mem_nil rec)) (fun r z => by simp)

theorem updateArea_eq_of_fix (tree : List Region) (r z a : String)
    (f : Area → Area) (A : Area) (hloc : locateArea tree r z a = some A)
    (hfix : f A = A) : updateArea r z a f tree = tree := by
  unfold locateArea at hloc
  unfold updateArea
  cases hR : tree.find? (fun R => R.name == r) with
  | none => simp [hR] at hloc
  | some R0 =>
    simp only [hR] at hloc
    apply updateFirst_eq_of_fix
    intro x hx
    rw [hR] at hx
    obtain rfl : R0 = x := by simpa using hx
    cases hZ : R0.children.find? (fun Z => Z.name == z) with
    | none => simp [hZ] at hloc
    | some Z0 =>
      simp only [hZ] at hloc
      unfold regionZoneUpdate
      have hch : updateFirst (fun Z => Z.name == z) (zoneAreaUpdate a f)
          R0.children = R0.children := by
        apply updateFirst_eq_of_fix
        intro y hy
        rw [hZ] at hy
        obtain rfl : Z0 = y := by simpa using hy
        unfold zoneAreaUpdate
        have hch2 : updateFirst (fun A => A.name == a) f Z0.children =
            Z0.children := by
          apply updateFirst_eq_of_fix
          intro w hw
          rw [hloc] at hw
          obtain rfl : A = w := by simpa using hw
          exact hfix
        rw [hch2]
      rw [hch]

theorem updateZoneChildren_eq_of_fix (tree : List Region) (r z : String)
    (cs : List Area) (Z : Zone) (hloc : locateZone tree r z = some Z)
    (hfix : Z.children = cs) : updateZoneChildren r z cs tree = tree := by
  unfold locateZone at hloc
  unfold updateZoneChildren
  cases hR : tree.find? (fun R => R.name == r) with
  | none => simp [hR] at hloc
  | some R0 =>
    simp only [hR] at hloc
    apply updateFirst_eq_of_fix
    intro x hx
    rw [hR] at hx
    obtain rfl : R0 = x := by simpa using hx
    unfold regionZoneUpdate
    have hch : updateFirst (fun Z => Z.name == z) (zoneSetChildren cs)
        R0.children = R0.children := by
      apply updateFirst_eq_of_fix
      intro y hy
      rw [hloc] at hy
      obtain rfl : Z = y := by simpa using hy
      unfold zoneSetChildren
      rw [← hfix]
    rw [hch]

/-- The zones stage emits per unit either no events, a lone generation
request, or a generation request followed by one incremental tree save
of the unit's resulting tree. -/
theorem zonesUnit_events_cases (gen : String → List RegionRec) (now : Nat)
    (mode : Mode) (tree : List Region) (r : String) :
    (zonesUnit gen now mode tree r).2.2 = [] ∨
      (zonesUnit gen now mode tree r).2.2 = [Ev.genReq r "" ""] ∨
      (zonesUnit gen now mode tree r).2.2 =
        [Ev.genReq r "" "", Ev.saveTree (zonesUnit gen now mode tree r).1] := by
  cases mode with
  | append =>
    cases hex : tree.find? (fun R => R.name == r) with
    | some R => left; simp [zonesUnit, hex]
    | none =>
      cases hgen : gen r with
      | nil => right; left; simp [zonesUnit, hex, hgen]
      | cons rec rest => right; right; simp [zonesUnit, hex, hgen]
  | overwrite =>
    cases hex : tree.find? (fun R => R.name == r) with
    | some R =>
      cases hgen : gen r with
      | nil => right; left; simp [zonesUnit, hex, hgen]
      | cons rec rest => right; right; simp [zonesUnit, hex, hgen]
    | none =>
      cases hgen : gen r with
      | nil => right; left; simp [zonesUnit, hex, hgen]
      | cons rec rest => right; right; simp [zonesUnit, hex, hgen]
  | clean =>
    cases hex : tree.find? (fun R => R.name == r) with
    | some R =>
      cases hgen : gen r with
      | nil => right; left; simp [zonesUnit, hex, hgen]
      | cons rec rest => right; right; simp [zonesUnit, hex, hgen]
    | none =>
      cases hgen : gen r with
      | nil => right; left; simp [zonesUnit, hex, hgen]
      | cons rec rest => right; right; simp [zonesUnit, hex, hgen]

/-- The areas stage emits per unit either nothing or a lone generation
request --- never a file write. -/
theorem areasUnit_events_cases (gen : String → String → List AreaRec)
    (now : Nat) (mode : Mode) (tree : List Region) (u : ZoneTarget) :
    (areasUnit gen now mode tree u).2.2 = [] ∨
      (areasUnit gen now mode tree u).2.2 = [Ev.genReq u.region u.zone ""] := by
  unfold areasUnit
  cases hz : locateZone tree u.region u.zone with
  | none => left; rfl
  | some Z =>
    dsimp only
    by_cases hskip : mode = Mode.append ∧ Z.children ≠ []
    · left; rw [if_pos hskip]
    · right; rw [if_neg hskip]

/-- The points stage emits per unit either no events or a generation
request followed by one incremental tree save. -/
theorem pointsUnit_events_cases (gen : String → String → String → List PointRec)
    (now : Nat) (mode : Mode) (tree : List Region) (g : List String)
    (u : AreaTarget) :
    (pointsUnit gen now mode tree g u).2.2 = [] ∨
      (pointsUnit gen now mode tree g u).2.2 =
        [Ev.genReq u.region u.zone u.area,
          Ev.saveTree (pointsUnit gen now mode tree g u).1] := by
  unfold pointsUnit
  cases hloc : locateArea tree u.region u.zone u.area with
  | none => left; rfl
  | some A =>
    dsimp only
    by_cases hskip : mode = Mode.append ∧ A.children ≠ []
    · left; rw [if_pos hskip]
    · right; rw [if_neg hskip]

theorem zonesUnit_save_of_mutation (gen : String → List RegionRec) (now : Nat)
    (mode : Mode) (tree : List Region) (r : String)
    (hmode : mode ≠ Mode.overwrite)
    (hmut : (zonesUnit gen now mode tree r).1 ≠ tree) :
    Ev.saveTree (zonesUnit gen now mode tree r).1 ∈
      (zonesUnit gen now mode tree r).2.2 := by
  cases mode with
  | overwrite => exact absurd rfl hmode
  | append =>
    cases hex : tree.find? (fun R => R.name == r) with
    | some R =>
      exact absurd (by simp [zonesUnit, hex]) hmut
    | none =>
      cases hgen : gen r with
      | nil => exact absurd (by simp [zonesUnit, hex, hgen]) hmut
      | cons rec rest => simp [zonesUnit, hex, hgen]
  | clean =>
    cases hex : tree.find? (fun R => R.name == r) with
    | some R =>
      cases hgen : gen r with
      | nil => exact absurd (by simp [zonesUnit, hex, hgen]) hmut
      | cons rec rest => simp [zonesUnit, hex, hgen]
    | none =>
      cases hgen : gen r with
      | nil => exact absurd (by simp [zonesUnit, hex, hgen]) hmut
      | cons rec rest => simp [zonesUnit, hex, hgen]

theorem pointsUnit_save_of_mutation (gen : String → String → String → List PointRec)
    (now : Nat) (mode : Mode) (tree : List Region) (g : List String)
    (u : AreaTarget) (hmut : (pointsUnit gen now mode tree g u).1 ≠ tree) :
    Ev.saveTree (pointsUnit gen now mode tree g u).1 ∈
      (pointsUnit gen now mode tree g u).2.2 := by
  rcases pointsUnit_events_cases gen now mode tree g u with h | h
  · exfalso
    apply hmut
    unfold pointsUnit at h ⊢
    cases hloc : locateArea tree u.region u.zone u.area with
    | none => rfl
    | some A =>
      rw [hloc] at h
      dsimp only at h ⊢
      by_cases hskip : mode = Mode.append ∧ A.children ≠ []
      · rw [if_pos hskip]
      · rw [if_neg hskip] at h
        simp at h
  · rw [h]
    simp

theorem zonesFoldl_no_saveProduced (gen : String → List RegionRec) (now : Nat)
    (mode : Mode) :
    ∀ (units : List String) (st : ZStageState),
      st.events.countP isSaveProducedEv = 0 →
      ((units.foldl (zonesStep gen now mode) st).events).countP isSaveProducedEv = 0 := by
  intro units
  induction units with
  | nil => intro st h; exact h
  | cons r rs ih =>
    intro st h
    rw [List.foldl_cons]
    apply ih
    show ((zonesStep gen now mode st r).events).countP isSaveProducedEv = 0
    have hunit : ((zonesUnit gen now mode st.tree r).2.2).countP isSaveProducedEv = 0 := by
      rcases zonesUnit_events_cases gen now mode st.tree r with hc | hc | hc <;>
        simp [hc, isSaveProducedEv]
    show ((st.events ++ (zonesUnit gen now mode st.tree r).2.2)).countP
      isSaveProducedEv = 0
    rw [List.countP_append, h, hunit]

theorem areasFoldl_no_saves (gen : String → String → List AreaRec) (now : Nat)
    (mode : Mode) :
    ∀ (units : List ZoneTarget) (st : AStageState),
      st.events.countP isSaveProducedEv = 0 →
      st.events.countP isSaveTreeEv = 0 →
      ((units.foldl (areasStep gen now mode) st).events).countP isSaveProducedEv = 0 ∧
        ((units.foldl (areasStep gen now mode) st).events).countP isSaveTreeEv = 0 := by
  intro units
  induction units with
  | nil => intro st h1 h2; exact ⟨h1, h2⟩
  | cons u us ih =>
    intro st h1 h2
    rw [List.foldl_cons]
    apply ih
    · show ((st.events ++ (areasUnit gen now mode st.tree u).2.2)).countP
        isSaveProducedEv = 0
      have hunit : ((areasUnit gen now mode st.tree u).2.2).countP isSaveProducedEv = 0 := by
        rcases areasUnit_events_cases gen now mode st.tree u with hc | hc <;>
          simp [hc, isSaveProducedEv]
      rw [List.countP_append, h1, hunit]
    · show ((st.events ++ (areasUnit gen now mode st.tree u).2.2)).countP
        isSaveTreeEv = 0
      have hunit : ((areasUnit gen now mode st.tree u).2.2).countP isSaveTreeEv = 0 := by
        rcases areasUnit_events_cases gen now mode st.tree u with hc | hc <;>
          simp [hc, isSaveTreeEv]
      rw [List.countP_append, h2, hunit]

theorem pointsFoldl_no_saveProduced (gen : String → String → String → List PointRec)
    (now : Nat) (mode : Mode) :
    ∀ (units : List AreaTarget) (st : PStageState),
      st.events.countP isSaveProducedEv = 0 →
      ((units.foldl (pointsStep gen now mode) st).events).countP isSaveProducedEv = 0 := by
  intro units
  induction units with
  | nil => intro st h; exact h
  | cons u us ih =>
    intro st h
    rw [List.foldl_cons]
    apply ih
    show ((st.events ++ (pointsUnit gen now mode st.tree st.global u).2.2)).countP
      isSaveProducedEv = 0
    have hunit : ((pointsUnit gen now mode st.tree st.global u).2.2).countP
        isSaveProducedEv = 0 := by
      rcases pointsUnit_events_cases gen now mode st.tree st.global u with hc | hc <;>
        simp [hc, isSaveProducedEv]
    rw [List.countP_append, h, hunit]

set_option maxRecDepth 4000 in
/-- C6 (counterexample): the areas stage does *not* persist the tree
incrementally.  Two consecutive units both mutate the tree, yet the
whole run performs exactly one tree write (the single save after the
loop) --- so the first mutating unit is not followed by its own write. -/
theorem areas_not_incremental_counterexample :
    (areasStep (fun _ _ => [(⟨"A1", "d"⟩ : AreaRec)]) 0 Mode.append
        ⟨[⟨"r1", "R", "", [⟨"z1", "Z1", "", []⟩, ⟨"z2", "Z2", "", []⟩]⟩], [], []⟩
        ⟨"R", "Z1"⟩).tree ≠
      [⟨"r1", "R", "", [⟨"z1", "Z1", "", []⟩, ⟨"z2", "Z2", "", []⟩]⟩] ∧
      (areasStep (fun _ _ => [(⟨"A1", "d"⟩ : AreaRec)]) 0 Mode.append
          (areasStep (fun _ _ => [(⟨"A1", "d"⟩ : AreaRec)]) 0 Mode.append
            ⟨[⟨"r1", "R", "", [⟨"z1", "Z1", "", []⟩, ⟨"z2", "Z2", "", []⟩]⟩], [], []⟩
            ⟨"R", "Z1"⟩) ⟨"R", "Z2"⟩).tree ≠
        (areasStep (fun _ _ => [(⟨"A1", "d"⟩ : AreaRec)]) 0 Mode.append
          ⟨[⟨"r1", "R", "", [⟨"z1", "Z1", "", []⟩, ⟨"z2", "Z2", "", []⟩]⟩], [], []⟩
          ⟨"R", "Z1"⟩).tree ∧
      ((areasRun (fun _ _ => [(⟨"A1", "d"⟩ : AreaRec)]) 0 Mode.append
          (some [⟨"R", "Z1"⟩, ⟨"R", "Z2"⟩])
          [⟨"r1", "R", "", [⟨"z1", "Z1", "", []⟩, ⟨"z2", "Z2", "", []⟩]⟩]).events).countP
        isSaveTreeEv = 1 := by
  refine ⟨by decide, by decide, by decide⟩

/-- C6 (amended): persistence schedule per stage.  The zones stage (in
its non-overwrite modes) and the points stage (in every mode) write the
tree within every unit that mutated it; the areas stage never writes
inside a unit and instead writes the tree exactly once after all units,
followed by its produced list; the zones stage writes its produced list
exactly once, as the final event; the points stage writes no
produced list at all. -/
theorem persistence_schedule_amended :
    (∀ (gen : String → List RegionRec) (now : Nat) (mode : Mode)
      (tree : List Region) (r : String), mode ≠ Mode.overwrite →
      (zonesUnit gen now mode tree r).1 ≠ tree →
      Ev.saveTree (zonesUnit gen now mode tree r).1 ∈
        (zonesUnit gen now mode tree r).2.2) ∧
      (∀ (gen : String → String → String → List PointRec) (now : Nat)
        (mode : Mode) (tree : List Region) (g : List String) (u : AreaTarget),
        (pointsUnit gen now mode tree g u).1 ≠ tree →
        Ev.saveTree (pointsUnit gen now mode tree g u).1 ∈
          (pointsUnit gen now mode tree g u).2.2) ∧
      (∀ (gen : String → List RegionRec) (now : Nat) (mode : Mode)
        (units : List String) (tree0 : List Region), ∃ E P,
        (zonesRun gen now mode (some units) tree0).events =
          E ++ [Ev.saveProduced P] ∧ E.countP isSaveProducedEv = 0) ∧
      (∀ (gen : String → String → List AreaRec) (now : Nat) (mode : Mode)
        (units : List ZoneTarget) (tree0 : List Region), ∃ E T P,
        (areasRun gen now mode (some units) tree0).events =
          E ++ [Ev.saveTree T, Ev.saveProduced P] ∧
          E.countP isSaveTreeEv = 0 ∧ E.countP isSaveProducedEv = 0) ∧
      (∀ (gen : String → String → String → List PointRec) (now : Nat)
        (mode : Mode) (cfg : Option (List AreaTarget)) (tree0 : List Region),
        ((pointsRun gen now mode cfg tree0).events).countP isSaveProducedEv = 0) := by
  refine ⟨zonesUnit_save_of_mutation, pointsUnit_save_of_mutation, ?_, ?_, ?_⟩
  · intro gen now mode units tree0
    refine ⟨(units.foldl (zonesStep gen now mode)
      ⟨if mode = Mode.clean then [] else tree0, [], []⟩).events,
      (units.foldl (zonesStep gen now mode)
        ⟨if mode = Mode.clean then [] else tree0, [], []⟩).produced, rfl, ?_⟩
    exact zonesFoldl_no_saveProduced gen now mode units
      ⟨if mode = Mode.clean then [] else tree0, [], []⟩ (by simp)
  · intro gen now mode units tree0
    refine ⟨(units.foldl (areasStep gen now mode)
      ⟨if mode = Mode.clean then [] else tree0, [], []⟩).events,
      (units.foldl (areasStep gen now mode)
        ⟨if mode = Mode.clean then [] else tree0, [], []⟩).tree,
      (units.foldl (areasStep gen now mode)
        ⟨if mode = Mode.clean then [] else tree0, [], []⟩).produced, rfl, ?_, ?_⟩
    · exact (areasFoldl_no_saves gen now mode units
        ⟨if mode = Mode.clean then [] else tree0, [], []⟩ (by simp) (by simp)).2
    · exact (areasFoldl_no_saves gen now mode units
        ⟨if mode = Mode.clean then [] else tree0, [], []⟩ (by simp) (by simp)).1
  · intro gen now mode cfg tree0
    cases cfg with
    | none => rfl
    | some units =>
      exact pointsFoldl_no_saveProduced gen now mode units
        ⟨if mode = Mode.clean then [] else tree0,
          pointNames (if mode = Mode.clean then [] else tree0), []⟩ (by simp)

/-- C6 (witness): a concrete points-stage unit that mutates the tree
carries the incremental tree save in its own event list. -/
theorem persistence_schedule_amended_witness :
    Ev.saveTree (pointsUnit (fun _ _ _ => [(⟨"Q", "d"⟩ : PointRec)]) 0 Mode.append
        [⟨"r1", "R", "", [⟨"z1", "Z", "", [⟨"a1", "A", "", []⟩]⟩]⟩] [] ⟨"R", "Z", "A"⟩).1 ∈
      (pointsUnit (fun _ _ _ => [(⟨"Q", "d"⟩ : PointRec)]) 0 Mode.append
        [⟨"r1", "R", "", [⟨"z1", "Z", "", [⟨"a1", "A", "", []⟩]⟩]⟩] [] ⟨"R", "Z", "A"⟩).2.2 :=
  persistence_schedule_amended.2.1 (fun _ _ _ => [(⟨"Q", "d"⟩ : PointRec)]) 0
    Mode.append [⟨"r1", "R", "", [⟨"z1", "Z", "", [⟨"a1", "A", "", []⟩]⟩]⟩] []
    ⟨"R", "Z", "A"⟩ (by decide)

/-- C1 (counterexample): under total quota exhaustion the request loop
does issue exactly `N × 2K` attempts and yields the empty list, but "no
tree node is mutated for that unit" fails in overwrite mode: the zones
stage removes the existing same-named region from the in-memory tree
*before* generating, so an exhausted unit still mutates the tree. -/
theorem quota_exhaustion_counterexample :
    (generationLoop (fun _ => (Except.error [] : Except (List Char) (List RegionRec)))
        (fun _ => ApiResult.errQuota) 1 ["gemini-2.5-flash"] 0 0).1 = [] ∧
      (generationLoop (fun _ => (Except.error [] : Except (List Char) (List RegionRec)))
        (fun _ => ApiResult.errQuota) 1 ["gemini-2.5-flash"] 0 0).2.1 = 2 ∧
      (zonesUnit (fun _ => ([] : List RegionRec)) 0 Mode.overwrite
        [⟨"r1", "R", "", []⟩] "R").1 ≠ [⟨"r1", "R", "", []⟩] := by
  refine ⟨by decide, by decide, by decide⟩

/-- C1 (amended): with `N` candidate models and `K` credentials, if
every attempt fails with a quota error then exactly `N * (K * 2)`
requests are issued in total and the unit's result is the empty list;
and in append mode (the default) a unit whose generation came back
empty leaves the tree unchanged in every stage.  (In overwrite mode the
zones stage has already dropped the targeted region and the points and
areas stages still clear the target's children --- see C10.) -/
theorem quota_exhaustion_amended (ρ : Type)
    (parse : List Char → Except (List Char) (List ρ))
    (models : List String) (K key : Nat) :
    (generationLoop parse (fun _ => ApiResult.errQuota) K models 0 key).1 = [] ∧
      (generationLoop parse (fun _ => ApiResult.errQuota) K models 0 key).2.1 =
        models.length * (K * 2) ∧
      (∀ (gen : String → List RegionRec) (now : Nat) (tree : List Region)
        (r : String), gen r = [] →
        (zonesUnit gen now Mode.append tree r).1 = tree) ∧
      (∀ (gen : String → String → List AreaRec) (now : Nat) (tree : List Region)
        (u : ZoneTarget), gen u.region u.zone = [] →
        (areasUnit gen now Mode.append tree u).1 = tree) ∧
      (∀ (gen : String → String → String → List PointRec) (now : Nat)
        (tree : List Region) (g : List String) (u : AreaTarget),
        gen u.region u.zone u.area = [] →
        (pointsUnit gen now Mode.append tree g u).1 = tree) := by
  obtain ⟨key1, h⟩ := generationLoop_allQuota parse K models 0 key
  refine ⟨by rw [h], by rw [h]; simp, ?_, ?_, ?_⟩
  · intro gen now tree r hgen
    cases hex : tree.find? (fun R => R.name == r) with
    | some R => simp [zonesUnit, hex]
    | none => simp [zonesUnit, hex, hgen]
  · intro gen now tree u hgen
    unfold areasUnit
    cases hz : locateZone tree u.region u.zone with
    | none => rfl
    | some Z =>
      dsimp only
      by_cases hskip : Mode.append = Mode.append ∧ Z.children ≠ []
      · rw [if_pos hskip]
      · rw [if_neg hskip]
        show updateZoneChildren u.region u.zone
          (mergeAreas now _ (gen u.region u.zone)) tree = tree
        apply updateZoneChildren_eq_of_fix tree u.region u.zone _ Z hz
        rw [hgen]
        simp [mergeAreas]
  · intro gen now tree g u hgen
    unfold pointsUnit
    cases hloc : locateArea tree u.region u.zone u.area with
    | none => rfl
    | some A =>
      dsimp only
      by_cases hskip : Mode.append = Mode.append ∧ A.children ≠ []
      · rw [if_pos hskip]
      · rw [if_neg hskip]
        show updateArea u.region u.zone u.area (areaSetChildren _) tree = tree
        rw [hgen]
        apply updateArea_eq_of_fix tree u.region u.zone u.area _ A hloc
        simp [attachPoints, areaSetChildren]

/-- C1 (witness): the amended no-mutation clause at a concrete
append-mode unit with failing generation. -/
theorem quota_exhaustion_amended_witness :
    (zonesUnit (fun _ => ([] : List RegionRec)) 0 Mode.append
        [⟨"r1", "R", "", []⟩] "R").1 = [⟨"r1", "R", "", []⟩] :=
  (quota_exhaustion_amended RegionRec (fun _ => Except.error []) ["m"] 1 0).2.2.1
    (fun _ => []) 0 [⟨"r1", "R", "", []⟩] "R" rfl

theorem find?_append_of_isSome {α : Type} (p : α → Bool) (l₁ l₂ : List α)
    (h : (l₁.find? p).isSome) : ((l₁ ++ l₂).find? p) = l₁.find? p := by
  induction l₁ with
  | nil => simp [List.find?] at h
  | cons x xs ih =>
    cases hp : p x with
    | true => simp [List.find?, hp]
    | false =>
      simp only [List.find?, hp] at h
      simp only [List.cons_append, List.find?, hp]
      exact ih h

theorem find?_append_of_none {α : Type} (p : α → Bool) (l₁ l₂ : List α)
    (h : l₁.find? p = none) : ((l₁ ++ l₂).find? p) = l₂.find? p := by
  induction l₁ with
  | nil => rfl
  | cons x xs ih =>
    simp only [List.find?] at h
    cases hp : p x with
    | true => simp [hp] at h
    | false =>
      simp only [hp] at h
      simp only [List.cons_append, List.find?, hp]
      exact ih h

theorem mem_insertName (acc : List String) (nm x : String) :
    x ∈ (if acc.contains nm then acc else acc ++ [nm]) ↔ x ∈ acc ∨ x = nm := by
  split
  · rename_i h
    rw [List.elem_iff] at h
    constructor
    · exact Or.inl
    · rintro (hx | rfl)
      · exact hx
      · exact h
  · simp

theorem mem_foldl_pointNames (ps : List Point) :
    ∀ (acc : List String) (x : String),
      x ∈ ps.foldl (fun acc p =>
        if acc.contains p.name then acc else acc ++ [p.name]) acc ↔
        x ∈ acc ∨ ∃ p ∈ ps, p.name = x := by
  induction ps with
  | nil => intro acc x; simp
  | cons p ps ih =>
    intro acc x
    rw [List.foldl_cons, ih, mem_insertName]
    constructor
    · rintro ((h | h) | h)
      · exact Or.inl h
      · exact Or.inr ⟨p, by simp, h.symm⟩
      · rcases h with ⟨q, hq, hqx⟩
        exact Or.inr ⟨q, by simp [hq], hqx⟩
    · rintro (h | ⟨q, hq, hqx⟩)
      · exact Or.inl (Or.inl h)
      · rcases List.mem_cons.mp hq with rfl | hq2
        · exact Or.inl (Or.inr hqx.symm)
        · exact Or.inr ⟨q, hq2, hqx⟩

theorem mem_foldl_areaNames (as : List Area) :
    ∀ (acc : List String) (x : String),
      x ∈ as.foldl (fun acc A => A.children.foldl (fun acc p =>
        if acc.contains p.name then acc else acc ++ [p.name]) acc) acc ↔
        x ∈ acc ∨ ∃ A ∈ as, ∃ p ∈ A.children, p.name = x := by
  induction as with
  | nil => intro acc x; simp
  | cons A as ih =>
    intro acc x
    rw [List.foldl_cons, ih, mem_foldl_pointNames]
    constructor
    · rintro ((h | h) | h)
      · exact Or.inl h
      · exact Or.inr ⟨A, by simp, h⟩
      · rcases h with ⟨B, hB, hp⟩
        exact Or.inr ⟨B, by simp [hB], hp⟩
    · rintro (h | ⟨B, hB, hp⟩)
      · exact Or.inl (Or.inl h)
      · rcases List.mem_cons.mp hB with rfl | hB2
        · exact Or.inl (Or.inr hp)
        · exact Or.inr ⟨B, hB2, hp⟩

theorem mem_foldl_zoneNames (zs : List Zone) :
    ∀ (acc : List String) (x : String),
      x ∈ zs.foldl (fun acc Z => Z.children.foldl (fun acc A =>
        A.children.foldl (fun acc p =>
          if acc.contains p.name then acc else acc ++ [p.name]) acc) acc) acc ↔
        x ∈ acc ∨ ∃ Z ∈ zs, ∃ A ∈ Z.children, ∃ p ∈ A.children, p.name = x := by
  induction zs with
  | nil => intro acc x; simp
  | cons Z zs ih =>
    intro acc x
    rw [List.foldl_cons, ih, mem_foldl_areaNames]
    constructor
    · rintro ((h | h) | h)
      · exact Or.inl h
      · exact Or.inr ⟨Z, by simp, h⟩
      · rcases h with ⟨W, hW, hp⟩
        exact Or.inr ⟨W, by simp [hW], hp⟩
    · rintro (h | ⟨W, hW, hp⟩)
      · exact Or.inl (Or.inl h)
      · rcases List.mem_cons.mp hW with rfl | hW2
        · exact Or.inl (Or.inr hp)
        · exact Or.inr ⟨W, hW2, hp⟩

theorem mem_pointNames (tree : List Region) (x : String) :
    x ∈ pointNames tree ↔
      ∃ R ∈ tree, ∃ Z ∈ R.children, ∃ A ∈ Z.children, ∃ p ∈ A.children,
        p.name = x := by
  unfold pointNames
  have main : ∀ (rs : List Region) (acc : List String),
      x ∈ rs.foldl (fun acc R => R.children.foldl (fun acc Z =>
        Z.children.foldl (fun acc A => A.children.foldl (fun acc p =>
          if acc.contains p.name then acc else acc ++ [p.name]) acc) acc) acc) acc ↔
        x ∈ acc ∨ ∃ R ∈ rs, ∃ Z ∈ R.children, ∃ A ∈ Z.children, ∃ p ∈ A.children,
          p.name = x := by
    intro rs
    induction rs with
    | nil => intro acc; simp
    | cons R rs ih =>
      intro acc
      rw [List.foldl_cons, ih, mem_foldl_zoneNames]
      constructor
      · rintro ((h | h) | h)
        · exact Or.inl h
        · exact Or.inr ⟨R, by simp, h⟩
        · rcases h with ⟨S, hS, hp⟩
          exact Or.inr ⟨S, by simp [hS], hp⟩
      · rintro (h | ⟨S, hS, hp⟩)
        · exact Or.inl (Or.inl h)
        · rcases List.mem_cons.mp hS with rfl | hS2
          · exact Or.inl (Or.inr hp)
          · exact Or.inr ⟨S, hS2, hp⟩
  rw [main tree []]
  simp

theorem attachPoints_cons (now : Nat) (p : PointRec) (ps : List PointRec)
    (ex : List Point) (g : List String) :
    attachPoints now (p :: ps) ex g =
      match check_duplicate p.name g with
      | some _ => attachPoints now ps ex g
      | none => attachPoints now ps
          (ex ++ [⟨mkPointId now p.name, p.name, p.payload, ""⟩]) (g ++ [p.name]) := by
  unfold attachPoints
  rw [List.foldl_cons]
  cases check_duplicate p.name g <;> rfl

theorem attachPoints_fst_prefix (now : Nat) :
    ∀ (ps : List PointRec) (ex : List Point) (g : List String),
      ∃ suf, (attachPoints now ps ex g).1 = ex ++ suf := by
  intro ps
  induction ps with
  | nil => intro ex g; exact ⟨[], by simp [attachPoints]⟩
  | cons p ps ih =>
    intro ex g
    rw [attachPoints_cons]
    cases check_duplicate p.name g with
    | some m => exact ih ex g
    | none =>
      obtain ⟨suf, hsuf⟩ := ih (ex ++ [⟨mkPointId now p.name, p.name, p.payload, ""⟩])
        (g ++ [p.name])
      exact ⟨⟨mkPointId now p.name, p.name, p.payload, ""⟩ :: suf,
        by simp [hsuf]⟩

theorem check_duplicate_isSome_mono (n : String) (g g' : List String)
    (hsub : ∀ x ∈ g, x ∈ g') (h : (check_duplicate n g).isSome) :
    (check_duplicate n g').isSome := by
  unfold check_duplicate at h ⊢
  by_cases hm' : n ∈ g'
  · simp [hm']
  · rw [if_neg hm']
    by_cases hm : n ∈ g
    · exact absurd (hsub n hm) hm'
    · rw [if_neg hm] at h
      rw [List.find?_isSome] at h ⊢
      rcases h with ⟨e, he, hsim⟩
      exact ⟨e, hsub e he, hsim⟩

theorem attachPoints_fst_nil_mono (recs : List PointRec) :
    ∀ (g g' : List String) (now now' : Nat), (∀ x ∈ g, x ∈ g') →
      (attachPoints now recs [] g).1 = [] → (attachPoints now' recs [] g').1 = [] := by
  induction recs with
  | nil => intro g g' now now' _ _; rfl
  | cons p ps ih =>
    intro g g' now now' hsub h
    rw [attachPoints_cons] at h
    cases hc : check_duplicate p.name g with
    | none =>
      simp only [hc, List.nil_append] at h
      obtain ⟨suf, hsuf⟩ := attachPoints_fst_prefix now ps
        [⟨mkPointId now p.name, p.name, p.payload, ""⟩] (g ++ [p.name])
      rw [h] at hsuf
      simp at hsuf
    | some m =>
      simp only [hc] at h
      have hc' : (check_duplicate p.name g').isSome :=
        check_duplicate_isSome_mono p.name g g' hsub (by simp [hc])
      rw [attachPoints_cons]
      cases hc2 : check_duplicate p.name g' with
      | none => rw [hc2] at hc'; simp at hc'
      | some m2 => exact ih g g' now now' hsub h

theorem attachPoints_snd_of_fst_nil (now : Nat) (recs : List PointRec) :
    ∀ (g : List String), (attachPoints now recs [] g).1 = [] →
      (attachPoints now recs [] g).2 = g := by
  induction recs with
  | nil => intro g _; rfl
  | cons p ps ih =>
    intro g h
    rw [attachPoints_cons] at h ⊢
    cases hc : check_duplicate p.name g with
    | none =>
      simp only [hc, List.nil_append] at h
      obtain ⟨suf, hsuf⟩ := attachPoints_fst_prefix now ps
        [⟨mkPointId now p.name, p.name, p.payload, ""⟩] (g ++ [p.name])
      rw [h] at hsuf
      simp at hsuf
    | some m =>
      simp only [hc] at h
      simp only [hc]
      exact ih g h

theorem attachPoints_snd_mem (now : Nat) (recs : List PointRec) :
    ∀ (ex : List Point) (g : List String) (x : String),
      x ∈ (attachPoints now recs ex g).2 →
      x ∈ g ∨ ∃ p ∈ (attachPoints now recs ex g).1, p.name = x := by
  induction recs with
  | nil => intro ex g x hx; exact Or.inl hx
  | cons p ps ih =>
    intro ex g x hx
    rw [attachPoints_cons] at hx ⊢
    cases hc : check_duplicate p.name g with
    | some m =>
      simp only [hc] at hx ⊢
      exact ih ex g x hx
    | none =>
      simp only [hc] at hx ⊢
      rcases ih _ _ x hx with hg | hpt
      · rcases List.mem_append.mp hg with hg1 | hg1
        · exact Or.inl hg1
        · right
          refine ⟨⟨mkPointId now p.name, p.name, p.payload, ""⟩, ?_,
            by simp at hg1; exact hg1.symm⟩
          obtain ⟨suf, hsuf⟩ := attachPoints_fst_prefix now ps
            (ex ++ [⟨mkPointId now p.name, p.name, p.payload, ""⟩]) (g ++ [p.name])
          rw [hsuf]
          simp
      · exact Or.inr hpt

/-- Replacing the (empty) children of the located area only adds point
names: every old name survives and every new child's name appears. -/
theorem pointNames_updateArea (tree : List Region) (r z a : String)
    (pts : List Point) (A : Area)
    (hloc : locateArea tree r z a = some A) (hA : A.children = []) :
    (∀ x ∈ pointNames tree,
      x ∈ pointNames (updateArea r z a (areaSetChildren pts) tree)) ∧
      (∀ p ∈ pts,
        p.name ∈ pointNames (updateArea r z a (areaSetChildren pts) tree)) := by
  unfold locateArea at hloc
  cases hR0 : tree.find? (fun R => R.name == r) with
  | none => simp [hR0] at hloc
  | some R0 =>
  simp only [hR0] at hloc
  cases hZ0 : R0.children.find? (fun Z => Z.name == z) with
  | none => simp [hZ0] at hloc
  | some Z0 =>
  simp only [hZ0] at hloc
  obtain ⟨t1, t2, htree, -, -, htupd⟩ := updateFirst_decomp
    (fun R => R.name == r) (regionZoneUpdate z (zoneAreaUpdate a (areaSetChildren pts)))
    tree R0 hR0
  obtain ⟨c1, c2, hrch, -, -, hcupd⟩ := updateFirst_decomp
    (fun Z => Z.name == z) (zoneAreaUpdate a (areaSetChildren pts)) R0.children Z0 hZ0
  obtain ⟨d1, d2, hzch, -, -, hdupd⟩ := updateFirst_decomp
    (fun A => A.name == a) (areaSetChildren pts) Z0.children A hloc
  have hT' : updateArea r z a (areaSetChildren pts) tree =
      t1 ++ regionZoneUpdate z (zoneAreaUpdate a (areaSetChildren pts)) R0 :: t2 := by
    unfold updateArea
    exact htupd
  have hFch : (regionZoneUpdate z (zoneAreaUpdate a (areaSetChildren pts)) R0).children =
      c1 ++ zoneAreaUpdate a (areaSetChildren pts) Z0 :: c2 := by
    rw [regionZoneUpdate_children]
    exact hcupd
  have hGch : (zoneAreaUpdate a (areaSetChildren pts) Z0).children =
      d1 ++ areaSetChildren pts A :: d2 := by
    rw [zoneAreaUpdate_children]
    exact hdupd
  have hR0mem : regionZoneUpdate z (zoneAreaUpdate a (areaSetChildren pts)) R0 ∈
      updateArea r z a (areaSetChildren pts) tree := by
    rw [hT']
    exact List.mem_append.mpr (Or.inr (List.mem_cons_self _ _))
  have hZ0mem : zoneAreaUpdate a (areaSetChildren pts) Z0 ∈
      (regionZoneUpdate z (zoneAreaUpdate a (areaSetChildren pts)) R0).children := by
    rw [hFch]
    exact List.mem_append.mpr (Or.inr (List.mem_cons_self _ _))
  have hA0mem : areaSetChildren pts A ∈
      (zoneAreaUpdate a (areaSetChildren pts) Z0).children := by
    rw [hGch]
    exact List.mem_append.mpr (Or.inr (List.mem_cons_self _ _))
  constructor
  · intro x hx
    rw [mem_pointNames] at hx ⊢
    rcases hx with ⟨R, hRmem, Z, hZmem, B, hBmem, q, hq, hqn⟩
    rw [htree] at hRmem
    rcases List.mem_append.mp hRmem with hR1 | hR2
    · exact ⟨R, (by rw [hT']; exact List.mem_append.mpr (Or.inl hR1)),
        Z, hZmem, B, hBmem, q, hq, hqn⟩
    · rcases List.mem_cons.mp hR2 with hEq | hR3
      · rw [hEq, hrch] at hZmem
        rcases List.mem_append.mp hZmem with hZ1 | hZ2
        · exact ⟨regionZoneUpdate z (zoneAreaUpdate a (areaSetChildren pts)) R0,
            hR0mem, Z,
            (by rw [hFch]; exact List.mem_append.mpr (Or.inl hZ1)),
            B, hBmem, q, hq, hqn⟩
        · rcases List.mem_cons.mp hZ2 with hEqZ | hZ3
          · rw [hEqZ, hzch] at hBmem
            rcases List.mem_append.mp hBmem with hB1 | hB2
            · exact ⟨regionZoneUpdate z (zoneAreaUpdate a (areaSetChildren pts)) R0,
                hR0mem, zoneAreaUpdate a (areaSetChildren pts) Z0, hZ0mem, B,
                (by rw [hGch]; exact List.mem_append.mpr (Or.inl hB1)),
                q, hq, hqn⟩
            · rcases List.mem_cons.mp hB2 with hEqB | hB3
              · rw [hEqB, hA] at hq
                exact absurd hq (List.not_mem_nil q)
              · exact ⟨regionZoneUpdate z (zoneAreaUpdate a (areaSetChildren pts)) R0,
                  hR0mem, zoneAreaUpdate a (areaSetChildren pts) Z0, hZ0mem, B,
                  (by rw [hGch]
                      exact List.mem_append.mpr (Or.inr (List.mem_cons_of_mem _ hB3))),
                  q, hq, hqn⟩
          · exact ⟨regionZoneUpdate z (zoneAreaUpdate a (areaSetChildren pts)) R0,
              hR0mem, Z,
              (by rw [hFch]
                  exact List.mem_append.mpr (Or.inr (List.mem_cons_of_mem _ hZ3))),
              B, hBmem, q, hq, hqn⟩
      · exact ⟨R,
          (by rw [hT']
              exact List.mem_append.mpr (Or.inr (List.mem_cons_of_mem _ hR3))),
          Z, hZmem, B, hBmem, q, hq, hqn⟩
  · intro p hp
    rw [mem_pointNames]
    exact ⟨regionZoneUpdate z (zoneAreaUpdate a (areaSetChildren pts)) R0, hR0mem,
      zoneAreaUpdate a (areaSetChildren pts) Z0, hZ0mem,
      areaSetChildren pts A, hA0mem, p, (by simpa using hp), rfl⟩

theorem zonesUnit_append_skip (gen : String → List RegionRec) (now : Nat)
    (tree : List Region) (r : String) (R : Region)
    (h : tree.find? (fun R => R.name == r) = some R) :
    zonesUnit gen now Mode.append tree r =
      (tree, R.children.map (fun z => (⟨r, z.name⟩ : ZoneTarget)), []) := by
  simp [zonesUnit, h]

theorem zonesUnit_append_nogen (gen : String → List RegionRec) (now : Nat)
    (tree : List Region) (r : String)
    (h : tree.find? (fun R => R.name == r) = none) (hgen : gen r = []) :
    zonesUnit gen now Mode.append tree r = (tree, [], [Ev.genReq r "" ""]) := by
  simp [zonesUnit, h, hgen]

theorem zonesUnit_append_new (gen : String → List RegionRec) (now : Nat)
    (tree : List Region) (r : String) (rec : RegionRec) (rest : List RegionRec)
    (h : tree.find? (fun R => R.name == r) = none) (hgen : gen r = rec :: rest) :
    zonesUnit gen now Mode.append tree r =
      (tree ++ [newRegionNode now rec],
        rec.children.map (fun z => (⟨r, z.name⟩ : ZoneTarget)),
        [Ev.genReq r "" "", Ev.saveTree (tree ++ [newRegionNode now rec])]) := by
  simp [zonesUnit, h, hgen]

theorem zonesUnit_append_find_mono (gen : String → List RegionRec) (now : Nat)
    (tree : List Region) (r r' : String)
    (h : (tree.find? (fun R => R.name == r')).isSome) :
    (((zonesUnit gen now Mode.append tree r).1).find? (fun R => R.name == r')).isSome := by
  cases hex : tree.find? (fun R => R.name == r) with
  | some R => rw [zonesUnit_append_skip gen now tree r R hex]; exact h
  | none =>
    cases hgen : gen r with
    | nil => rw [zonesUnit_append_nogen gen now tree r hex hgen]; exact h
    | cons rec rest =>
      rw [zonesUnit_append_new gen now tree r rec rest hex hgen]
      have := find?_append_of_isSome (fun R => R.name == r') tree
        [newRegionNode now rec] h
      rw [this]
      exact h

theorem zonesFold_find_mono (gen : String → List RegionRec) (now : Nat) :
    ∀ (units : List String) (st : ZStageState) (r' : String),
      ((st.tree.find? (fun R => R.name == r')).isSome) →
      ((((units.foldl (zonesStep gen now Mode.append) st).tree).find?
        (fun R => R.name == r')).isSome) := by
  intro units
  induction units with
  | nil => intro st r' h; exact h
  | cons r rs ih =>
    intro st r' h
    rw [List.foldl_cons]
    exact ih (zonesStep gen now Mode.append st r) r'
      (zonesUnit_append_find_mono gen now st.tree r r' h)

theorem zonesFold_establishes (gen : String → List RegionRec) (now : Nat)
    (Hname : ∀ r rec rest, gen r = rec :: rest → rec.name = r) :
    ∀ (units : List String) (st : ZStageState), ∀ r ∈ units,
      ((((units.foldl (zonesStep gen now Mode.append) st).tree).find?
        (fun R => R.name == r)).isSome) ∨ gen r = [] := by
  intro units
  induction units with
  | nil => intro st r hr; exact absurd hr (List.not_mem_nil r)
  | cons r0 rs ih =>
    intro st r hr
    rw [List.foldl_cons]
    rcases List.mem_cons.mp hr with rfl | hr2
    · cases hex : st.tree.find? (fun R => R.name == r) with
      | some R =>
        left
        apply zonesFold_find_mono
        have htr : (zonesStep gen now Mode.append st r).tree = st.tree := by
          show (zonesUnit gen now Mode.append st.tree r).1 = st.tree
          rw [zonesUnit_append_skip gen now st.tree r R hex]
        rw [htr, hex]
        rfl
      | none =>
        cases hgen : gen r with
        | nil => exact Or.inr rfl
        | cons rec rest =>
          left
          apply zonesFold_find_mono
          have htr : (zonesStep gen now Mode.append st r).tree =
              st.tree ++ [newRegionNode now rec] := by
            show (zonesUnit gen now Mode.append st.tree r).1 = _
            rw [zonesUnit_append_new gen now st.tree r rec rest hex hgen]
          rw [htr, find?_append_of_none (fun R => R.name == r) st.tree
            [newRegionNode now rec] hex]
          have hname : (newRegionNode now rec).name = r := Hname r rec rest hgen
          simp [List.find?, hname]
    · exact ih (zonesStep gen now Mode.append st r0) r hr2

theorem zonesFold_tree_id (gen : String → List RegionRec) (now : Nat) :
    ∀ (units : List String) (st : ZStageState),
      (∀ r ∈ units, ((st.tree.find? (fun R => R.name == r)).isSome) ∨ gen r = []) →
      ((units.foldl (zonesStep gen now Mode.append) st).tree) = st.tree := by
  intro units
  induction units with
  | nil => intro st _; rfl
  | cons r rs ih =>
    intro st hI
    rw [List.foldl_cons]
    have hstep : (zonesStep gen now Mode.append st r).tree = st.tree := by
      show (zonesUnit gen now Mode.append st.tree r).1 = st.tree
      rcases hI r (List.mem_cons_self r rs) with hs | hg
      · rw [Option.isSome_iff_exists] at hs
        rcases hs with ⟨R, hR⟩
        rw [zonesUnit_append_skip gen now st.tree r R hR]
      · cases hex : st.tree.find? (fun R => R.name == r) with
        | some R => rw [zonesUnit_append_skip gen now st.tree r R hex]
        | none => rw [zonesUnit_append_nogen gen now st.tree r hex hg]
    rw [ih (zonesStep gen now Mode.append st r)
      (fun r' hr' => by rw [hstep]; exact hI r' (List.mem_cons_of_mem r hr')),
      hstep]

theorem zonesRun_append_idem (gen : String → List RegionRec) (now1 now2 : Nat)
    (units : List String) (tree0 : List Region)
    (Hname : ∀ r rec rest, gen r = rec :: rest → rec.name = r) :
    (zonesRun gen now2 Mode.append (some units)
        (zonesRun gen now1 Mode.append (some units) tree0).tree).tree =
      (zonesRun gen now1 Mode.append (some units) tree0).tree := by
  have hmode : (if Mode.append = Mode.clean then ([] : List Region) else tree0) = tree0 := by
    simp
  simp only [zonesRun, hmode]
  apply zonesFold_tree_id gen now2 units
  intro r hr
  have h := zonesFold_establishes gen now1 Hname units ⟨tree0, [], []⟩ r hr
  simpa using h

theorem areasUnit_append_locnone (gen : String → String → List AreaRec)
    (now : Nat) (tree : List Region) (u : ZoneTarget)
    (h : locateZone tree u.region u.zone = none) :
    areasUnit gen now Mode.append tree u = (tree, [], []) := by
  simp [areasUnit, h]

theorem areasUnit_append_skip (gen : String → String → List AreaRec)
    (now : Nat) (tree : List Region) (u : ZoneTarget) (Z : Zone)
    (h : locateZone tree u.region u.zone = some Z) (hne : Z.children ≠ []) :
    areasUnit gen now Mode.append tree u =
      (tree, Z.children.map (fun a => ⟨u.region, u.zone, a.name⟩), []) := by
  simp [areasUnit, h, hne]

theorem areasUnit_append_gen (gen : String → String → List AreaRec)
    (now : Nat) (tree : List Region) (u : ZoneTarget) (Z : Zone)
    (h : locateZone tree u.region u.zone = some Z) (hempty : Z.children = []) :
    areasUnit gen now Mode.append tree u =
      (updateZoneChildren u.region u.zone
          (mergeAreas now [] (gen u.region u.zone)) tree,
        (gen u.region u.zone).map (fun a => ⟨u.region, u.zone, a.name⟩),
        [Ev.genReq u.region u.zone ""]) := by
  simp [areasUnit, h, hempty]

theorem mergeAreas_ne_nil (now : Nat) (rec : AreaRec) (rest : List AreaRec) :
    mergeAreas now [] (rec :: rest) ≠ [] := by
  intro h
  rw [mergeAreas_eq] at h
  simp [List.filter] at h

theorem locateZone_updateZoneChildren (tree : List Region) (r z r' z' : String)
    (cs : List Area) :
    locateZone (updateZoneChildren r z cs tree) r' z' =
      if r' = r ∧ z' = z then (locateZone tree r z).map (zoneSetChildren cs)
      else locateZone tree r' z' := by
  unfold updateZoneChildren
  rw [locateZone_regionUpdate tree r z r' z' (zoneSetChildren cs)
    (fun Z => zoneSetChildren_name cs Z)]
  by_cases hr : r' = r
  · rw [if_pos hr]
    subst hr
    by_cases hz : z' = z
    · subst hz
      rw [if_pos ⟨rfl, rfl⟩]
      unfold locateZone
      cases hR : tree.find? (fun R => R.name == r') <;> simp
    · rw [if_neg (fun hc => hz hc.2)]
      unfold locateZone
      cases hR : tree.find? (fun R => R.name == r') <;> simp [hz]
  · rw [if_neg hr, if_neg (fun hc => hr hc.1)]

theorem areasStep_append_tree (gen : String → String → List AreaRec)
    (now : Nat) (st : AStageState) (u0 : ZoneTarget) :
    (locateZone st.tree u0.region u0.zone = none ∧
      (areasStep gen now Mode.append st u0).tree = st.tree) ∨
    (∃ Z, locateZone st.tree u0.region u0.zone = some Z ∧ Z.children ≠ [] ∧
      (areasStep gen now Mode.append st u0).tree = st.tree) ∨
    (∃ Z, locateZone st.tree u0.region u0.zone = some Z ∧ Z.children = [] ∧
      (areasStep gen now Mode.append st u0).tree =
        updateZoneChildren u0.region u0.zone
          (mergeAreas now [] (gen u0.region u0.zone)) st.tree) := by
  cases hl : locateZone st.tree u0.region u0.zone with
  | none =>
    left
    refine ⟨rfl, ?_⟩
    show (areasUnit gen now Mode.append st.tree u0).1 = st.tree
    rw [areasUnit_append_locnone gen now st.tree u0 hl]
  | some Z =>
    by_cases hch : Z.children = []
    · right; right
      refine ⟨Z, rfl, hch, ?_⟩
      show (areasUnit gen now Mode.append st.tree u0).1 = _
      rw [areasUnit_append_gen gen now st.tree u0 Z hl hch]
    · right; left
      refine ⟨Z, rfl, hch, ?_⟩
      show (areasUnit gen now Mode.append st.tree u0).1 = st.tree
      rw [areasUnit_append_skip gen now st.tree u0 Z hl hch]

theorem areasStep_genOk_preserved (gen : String → String → List AreaRec)
    (now : Nat) (st : AStageState) (u0 u : ZoneTarget)
    (h : AreaGenOk gen st.tree u) :
    AreaGenOk gen (areasStep gen now Mode.append st u0).tree u := by
  rcases areasStep_append_tree gen now st u0 with ⟨_, hT⟩ | ⟨Z0, _, _, hT⟩ |
    ⟨Z0, hl0, hch0, hT⟩
  · rw [hT]; exact h
  · rw [hT]; exact h
  · rw [hT]
    intro Z hZ
    rw [locateZone_updateZoneChildren st.tree u0.region u0.zone u.region u.zone _] at hZ
    by_cases hc : u.region = u0.region ∧ u.zone = u0.zone
    · rw [if_pos hc, hl0, Option.map_some'] at hZ
      obtain ⟨hcr, hcz⟩ := hc
      have hZe : zoneSetChildren (mergeAreas now [] (gen u0.region u0.zone)) Z0 = Z :=
        Option.some.inj hZ
      cases hgen : gen u0.region u0.zone with
      | nil => right; rw [hcr, hcz]; exact hgen
      | cons a as =>
        left
        rw [← hZe]
        show mergeAreas now [] (gen u0.region u0.zone) ≠ []
        rw [hgen]
        exact mergeAreas_ne_nil now a as
    · rw [if_neg hc] at hZ
      exact h Z hZ

theorem areasStep_genOk_self (gen : String → String → List AreaRec)
    (now : Nat) (st : AStageState) (u0 : ZoneTarget) :
    AreaGenOk gen (areasStep gen now Mode.append st u0).tree u0 := by
  rcases areasStep_append_tree gen now st u0 with ⟨hl0, hT⟩ | ⟨Z0, hl0, hne0, hT⟩ |
    ⟨Z0, hl0, hch0, hT⟩
  · rw [hT]
    intro Z hZ
    rw [hl0] at hZ
    cases hZ
  · rw [hT]
    intro Z hZ
    rw [hl0] at hZ
    obtain rfl : Z0 = Z := Option.some.inj hZ
    exact Or.inl hne0
  · rw [hT]
    intro Z hZ
    rw [locateZone_updateZoneChildren st.tree u0.region u0.zone u0.region u0.zone _,
      if_pos ⟨rfl, rfl⟩, hl0, Option.map_some'] at hZ
    have hZe : zoneSetChildren (mergeAreas now [] (gen u0.region u0.zone)) Z0 = Z :=
      Option.some.inj hZ
    cases hgen : gen u0.region u0.zone with
    | nil => exact Or.inr rfl
    | cons a as =>
      left
      rw [← hZe]
      show mergeAreas now [] (gen u0.region u0.zone) ≠ []
      rw [hgen]
      exact mergeAreas_ne_nil now a as

theorem areasFold_genOk_mono (gen : String → String → List AreaRec) (now : Nat) :
    ∀ (units : List ZoneTarget) (st : AStageState) (u : ZoneTarget),
      AreaGenOk gen st.tree u →
      AreaGenOk gen ((units.foldl (areasStep gen now Mode.append) st)).tree u := by
  intro units
  induction units with
  | nil => intro st u h; exact h
  | cons u0 us ih =>
    intro st u h
    rw [List.foldl_cons]
    exact ih (areasStep gen now Mode.append st u0) u
      (areasStep_genOk_preserved gen now st u0 u h)

theorem areasFold_genOk_establishes (gen : String → String → List AreaRec)
    (now : Nat) :
    ∀ (units : List ZoneTarget) (st : AStageState), ∀ u ∈ units,
      AreaGenOk gen ((units.foldl (areasStep gen now Mode.append) st)).tree u := by
  intro units
  induction units with
  | nil => intro st u hu; exact absurd hu (List.not_mem_nil u)
  | cons u0 us ih =>
    intro st u hu
    rw [List.foldl_cons]
    rcases List.mem_cons.mp hu with rfl | hu2
    · exact areasFold_genOk_mono gen now us (areasStep gen now Mode.append st u) u
        (areasStep_genOk_self gen now st u)
    · exact ih (areasStep gen now Mode.append st u0) u hu2

theorem areasFold_tree_id (gen : String → String → List AreaRec) (now : Nat) :
    ∀ (units : List ZoneTarget) (st : AStageState),
      (∀ u ∈ units, AreaGenOk gen st.tree u) →
      ((units.foldl (areasStep gen now Mode.append) st)).tree = st.tree := by
  intro units
  induction units with
  | nil => intro st _; rfl
  | cons u0 us ih =>
    intro st hI
    rw [List.foldl_cons]
    have hstep : (areasStep gen now Mode.append st u0).tree = st.tree := by
      rcases areasStep_append_tree gen now st u0 with ⟨_, hT⟩ | ⟨Z0, _, _, hT⟩ |
        ⟨Z0, hl0, hch0, hT⟩
      · exact hT
      · exact hT
      · rcases hI u0 (List.mem_cons_self u0 us) Z0 hl0 with hne | hg
        · exact absurd hch0 hne
        · rw [hT, hg]
          exact updateZoneChildren_eq_of_fix st.tree u0.region u0.zone _ Z0 hl0 hch0
    rw [ih (areasStep gen now Mode.append st u0)
      (fun u' hu' => by rw [hstep]; exact hI u' (List.mem_cons_of_mem u0 hu')),
      hstep]

theorem areasRun_append_idem (gen : String → String → List AreaRec)
    (now1 now2 : Nat) (units : List ZoneTarget) (tree0 : List Region) :
    (areasRun gen now2 Mode.append (some units)
        (areasRun gen now1 Mode.append (some units) tree0).tree).tree =
      (areasRun gen now1 Mode.append (some units) tree0).tree := by
  have hmode : (if Mode.append = Mode.clean then ([] : List Region) else tree0) = tree0 := by
    simp
  simp only [areasRun, hmode]
  apply areasFold_tree_id gen now2 units
  intro u hu
  have h := areasFold_genOk_establishes gen now1 units ⟨tree0, [], []⟩ u hu
  simpa using h

theorem pointsUnit_append_locnone (gen : String → String → String → List PointRec)
    (now : Nat) (tree : List Region) (g : List String) (u : AreaTarget)
    (h : locateArea tree u.region u.zone u.area = none) :
    pointsUnit gen now Mode.append tree g u = (tree, g, []) := by
  simp [pointsUnit, h]

theorem pointsUnit_append_skip (gen : String → String → String → List PointRec)
    (now : Nat) (tree : List Region) (g : List String) (u : AreaTarget) (A : Area)
    (h : locateArea tree u.region u.zone u.area = some A) (hne : A.children ≠ []) :
    pointsUnit gen now Mode.append tree g u = (tree, g, []) := by
  simp [pointsUnit, h, hne]

theorem pointsUnit_append_gen (gen : String → String → String → List PointRec)
    (now : Nat) (tree : List Region) (g : List String) (u : AreaTarget) (A : Area)
    (h : locateArea tree u.region u.zone u.area = some A) (hempty : A.children = []) :
    pointsUnit gen now Mode.append tree g u =
      (updateArea u.region u.zone u.area
          (areaSetChildren (attachPoints now (gen u.region u.zone u.area) [] g).1) tree,
        (attachPoints now (gen u.region u.zone u.area) [] g).2,
        [Ev.genReq u.region u.zone u.area,
          Ev.saveTree (updateArea u.region u.zone u.area
            (areaSetChildren
              (attachPoints now (gen u.region u.zone u.area) [] g).1) tree)]) := by
  simp [pointsUnit, h, hempty]

theorem pointsStep_append_cases (gen : String → String → String → List PointRec)
    (now : Nat) (st : PStageState) (u0 : AreaTarget) :
    (locateArea st.tree u0.region u0.zone u0.area = none ∧
      (pointsStep gen now Mode.append st u0).tree = st.tree ∧
      (pointsStep gen now Mode.append st u0).global = st.global) ∨
    (∃ A, locateArea st.tree u0.region u0.zone u0.area = some A ∧ A.children ≠ [] ∧
      (pointsStep gen now Mode.append st u0).tree = st.tree ∧
      (pointsStep gen now Mode.append st u0).global = st.global) ∨
    (∃ A, locateArea st.tree u0.region u0.zone u0.area = some A ∧ A.children = [] ∧
      (pointsStep gen now Mode.append st u0).tree =
        updateArea u0.region u0.zone u0.area
          (areaSetChildren
            (attachPoints now (gen u0.region u0.zone u0.area) [] st.global).1)
          st.tree ∧
      (pointsStep gen now Mode.append st u0).global =
        (attachPoints now (gen u0.region u0.zone u0.area) [] st.global).2) := by
  cases hl : locateArea st.tree u0.region u0.zone u0.area with
  | none =>
    left
    refine ⟨rfl, ?_, ?_⟩
    · show (pointsUnit gen now Mode.append st.tree st.global u0).1 = st.tree
      rw [pointsUnit_append_locnone gen now st.tree st.global u0 hl]
    · show (pointsUnit gen now Mode.append st.tree st.global u0).2.1 = st.global
      rw [pointsUnit_append_locnone gen now st.tree st.global u0 hl]
  | some A =>
    by_cases hch : A.children = []
    · right; right
      refine ⟨A, rfl, hch, ?_, ?_⟩
      · show (pointsUnit gen now Mode.append st.tree st.global u0).1 = _
        rw [pointsUnit_append_gen gen now st.tree st.global u0 A hl hch]
      · show (pointsUnit gen now Mode.append st.tree st.global u0).2.1 = _
        rw [pointsUnit_append_gen gen now st.tree st.global u0 A hl hch]
    · right; left
      refine ⟨A, rfl, hch, ?_, ?_⟩
      · show (pointsUnit gen now Mode.append st.tree st.global u0).1 = st.tree
        rw [pointsUnit_append_skip gen now st.tree st.global u0 A hl hch]
      · show (pointsUnit gen now Mode.append st.tree st.global u0).2.1 = st.global
        rw [pointsUnit_append_skip gen now st.tree st.global u0 A hl hch]

theorem locateArea_updateArea_frame (tree : List Region) (r z a r' z' a' : String)
    (f : Area → Area) (hf : ∀ A, (f A).name = A.name)
    (hne : ¬(r' = r ∧ z' = z ∧ a' = a)) :
    locateArea (updateArea r z a f tree) r' z' a' = locateArea tree r' z' a' := by
  rw [locateArea_updateArea tree r z a r' z' a' f hf]
  by_cases hr : r' = r
  · rw [if_pos hr]
    subst hr
    unfold locateArea
    cases hR : tree.find? (fun R => R.name == r') with
    | none => rfl
    | some R =>
      dsimp only
      by_cases hz : z' = z
      · rw [if_pos hz]
        subst hz
        cases hZ : R.children.find? (fun Z => Z.name == z') with
        | none => rfl
        | some Z =>
          dsimp only
          have ha : ¬(a' = a) := fun hc => hne ⟨rfl, rfl, hc⟩
          rw [if_neg ha]
      · rw [if_neg hz]
  · rw [if_neg hr]

theorem areaSetChildren_eq_self (A : Area) (cs : List Point)
    (h : A.children = cs) : areaSetChildren cs A = A := by
  cases A
  simp only [areaSetChildren] at *
  rw [← h]

theorem pointsStep_pointNames_mono (gen : String → String → String → List PointRec)
    (now : Nat) (st : PStageState) (u0 : AreaTarget) :
    ∀ x ∈ pointNames st.tree,
      x ∈ pointNames (pointsStep gen now Mode.append st u0).tree := by
  rcases pointsStep_append_cases gen now st u0 with ⟨_, hT, _⟩ | ⟨A0, _, _, hT, _⟩ |
    ⟨A0, hl0, hch0, hT, _⟩
  · rw [hT]; exact fun x hx => hx
  · rw [hT]; exact fun x hx => hx
  · rw [hT]
    exact (pointNames_updateArea st.tree u0.region u0.zone u0.area _ A0 hl0 hch0).1

theorem pointsStep_global_sub (gen : String → String → String → List PointRec)
    (now : Nat) (st : PStageState) (u0 : AreaTarget)
    (hG : ∀ x ∈ st.global, x ∈ pointNames st.tree) :
    ∀ x ∈ (pointsStep gen now Mode.append st u0).global,
      x ∈ pointNames (pointsStep gen now Mode.append st u0).tree := by
  rcases pointsStep_append_cases gen now st u0 with ⟨_, hT, hGl⟩ | ⟨A0, _, _, hT, hGl⟩ |
    ⟨A0, hl0, hch0, hT, hGl⟩
  · rw [hT, hGl]; exact hG
  · rw [hT, hGl]; exact hG
  · rw [hT, hGl]
    intro x hx
    rcases attachPoints_snd_mem now (gen u0.region u0.zone u0.area) [] st.global x hx
      with hg | ⟨p, hp, hpx⟩
    · exact (pointNames_updateArea st.tree u0.region u0.zone u0.area _ A0 hl0 hch0).1
        x (hG x hg)
    · rw [← hpx]
      exact (pointNames_updateArea st.tree u0.region u0.zone u0.area _ A0 hl0 hch0).2 p hp

theorem pointsStep_genOk_preserved (gen : String → String → String → List PointRec)
    (now : Nat) (st : PStageState) (u0 u : AreaTarget)
    (hG : ∀ x ∈ st.global, x ∈ pointNames st.tree)
    (h : PointGenOk gen st.tree u) :
    PointGenOk gen (pointsStep gen now Mode.append st u0).tree u := by
  rcases pointsStep_append_cases gen now st u0 with ⟨_, hT, _⟩ | ⟨A0, _, _, hT, _⟩ |
    ⟨A0, hl0, hch0, hT, _⟩
  · rw [hT]; exact h
  · rw [hT]; exact h
  · rw [hT]
    intro A hA
    by_cases hn : u.region = u0.region ∧ u.zone = u0.zone ∧ u.area = u0.area
    · obtain ⟨h1, h2, h3⟩ := hn
      rw [h1, h2, h3] at hA ⊢
      rw [locateArea_updateArea_self st.tree u0.region u0.zone u0.area _
        (fun A1 => areaSetChildren_name _ A1), hl0, Option.map_some'] at hA
      have hAe : areaSetChildren
          (attachPoints now (gen u0.region u0.zone u0.area) [] st.global).1 A0 = A :=
        Option.some.inj hA
      cases hpts : (attachPoints now (gen u0.region u0.zone u0.area) [] st.global).1 with
      | cons p ps =>
        left
        rw [← hAe]
        show (attachPoints now (gen u0.region u0.zone u0.area) [] st.global).1 ≠ []
        rw [hpts]
        simp
      | nil =>
        right
        exact attachPoints_fst_nil_mono (gen u0.region u0.zone u0.area) st.global _ now 0
          (fun x hx =>
            (pointNames_updateArea st.tree u0.region u0.zone u0.area [] A0 hl0 hch0).1
              x (hG x hx))
          hpts
    · rw [locateArea_updateArea_frame st.tree u0.region u0.zone u0.area
        u.region u.zone u.area _ (fun A1 => areaSetChildren_name _ A1) hn] at hA
      rcases h A hA with h1 | h1
      · exact Or.inl h1
      · right
        exact attachPoints_fst_nil_mono (gen u.region u.zone u.area)
          (pointNames st.tree) _ 0 0
          (fun x hx =>
            (pointNames_updateArea st.tree u0.region u0.zone u0.area _ A0 hl0 hch0).1
              x hx)
          h1

theorem pointsStep_genOk_self (gen : String → String → String → List PointRec)
    (now : Nat) (st : PStageState) (u0 : AreaTarget)
    (hG : ∀ x ∈ st.global, x ∈ pointNames st.tree) :
    PointGenOk gen (pointsStep gen now Mode.append st u0).tree u0 := by
  rcases pointsStep_append_cases gen now st u0 with ⟨hl0, hT, _⟩ | ⟨A0, hl0, hne0, hT, _⟩ |
    ⟨A0, hl0, hch0, hT, _⟩
  · rw [hT]
    intro A hA
    rw [hl0] at hA
    cases hA
  · rw [hT]
    intro A hA
    rw [hl0] at hA
    obtain rfl : A0 = A := Option.some.inj hA
    exact Or.inl hne0
  · rw [hT]
    intro A hA
    rw [locateArea_updateArea_self st.tree u0.region u0.zone u0.area _
      (fun A1 => areaSetChildren_name _ A1), hl0, Option.map_some'] at hA
    have hAe : areaSetChildren
        (attachPoints now (gen u0.region u0.zone u0.area) [] st.global).1 A0 = A :=
      Option.some.inj hA
    cases hpts : (attachPoints now (gen u0.region u0.zone u0.area) [] st.global).1 with
    | cons p ps =>
      left
      rw [← hAe]
      show (attachPoints now (gen u0.region u0.zone u0.area) [] st.global).1 ≠ []
      rw [hpts]
      simp
    | nil =>
      right
      exact attachPoints_fst_nil_mono (gen u0.region u0.zone u0.area) st.global _ now 0
        (fun x hx =>
          (pointNames_updateArea st.tree u0.region u0.zone u0.area [] A0 hl0 hch0).1
            x (hG x hx))
        hpts

theorem pointsFold_genOk_mono (gen : String → String → String → List PointRec)
    (now : Nat) :
    ∀ (units : List AreaTarget) (st : PStageState) (u : AreaTarget),
      (∀ x ∈ st.global, x ∈ pointNames st.tree) →
      PointGenOk gen st.tree u →
      PointGenOk gen ((units.foldl (pointsStep gen now Mode.append) st)).tree u := by
  intro units
  induction units with
  | nil => intro st u _ h; exact h
  | cons u0 us ih =>
    intro st u hG h
    rw [List.foldl_cons]
    exact ih (pointsStep gen now Mode.append st u0) u
      (pointsStep_global_sub gen now st u0 hG)
      (pointsStep_genOk_preserved gen now st u0 u hG h)

theorem pointsFold_genOk_establishes (gen : String → String → String → List PointRec)
    (now : Nat) :
    ∀ (units : List AreaTarget) (st : PStageState),
      (∀ x ∈ st.global, x ∈ pointNames st.tree) → ∀ u ∈ units,
      PointGenOk gen ((units.foldl (pointsStep gen now Mode.append) st)).tree u := by
  intro units
  induction units with
  | nil => intro st _ u hu; exact absurd hu (List.not_mem_nil u)
  | cons u0 us ih =>
    intro st hG u hu
    rw [List.foldl_cons]
    rcases List.mem_cons.mp hu with rfl | hu2
    · exact pointsFold_genOk_mono gen now us (pointsStep gen now Mode.append st u) u
        (pointsStep_global_sub gen now st u hG)
        (pointsStep_genOk_self gen now st u hG)
    · exact ih (pointsStep gen now Mode.append st u0)
        (pointsStep_global_sub gen now st u0 hG) u hu2

theorem pointsFold_id (gen : String → String → String → List PointRec) (now : Nat) :
    ∀ (units : List AreaTarget) (st : PStageState),
      (∀ x, x ∈ st.global ↔ x ∈ pointNames st.tree) →
      (∀ u ∈ units, PointGenOk gen st.tree u) →
      ((units.foldl (pointsStep gen now Mode.append) st)).tree = st.tree ∧
        ((units.foldl (pointsStep gen now Mode.append) st)).global = st.global := by
  intro units
  induction units with
  | nil => intro st _ _; exact ⟨rfl, rfl⟩
  | cons u0 us ih =>
    intro st hEq hI
    rw [List.foldl_cons]
    have hstep : (pointsStep gen now Mode.append st u0).tree = st.tree ∧
        (pointsStep gen now Mode.append st u0).global = st.global := by
      rcases pointsStep_append_cases gen now st u0 with ⟨_, hT, hGl⟩ |
        ⟨A0, _, _, hT, hGl⟩ | ⟨A0, hl0, hch0, hT, hGl⟩
      · exact ⟨hT, hGl⟩
      · exact ⟨hT, hGl⟩
      · rcases hI u0 (List.mem_cons_self u0 us) A0 hl0 with hne | hrej
        · exact absurd hch0 hne
        · have hpts : (attachPoints now (gen u0.region u0.zone u0.area) []
              st.global).1 = [] :=
            attachPoints_fst_nil_mono (gen u0.region u0.zone u0.area)
              (pointNames st.tree) st.global 0 now
              (fun x hx => (hEq x).mpr hx) hrej
          constructor
          · rw [hT, hpts]
            exact updateArea_eq_of_fix st.tree u0.region u0.zone u0.area _ A0 hl0
              (areaSetChildren_eq_self A0 [] hch0)
          · rw [hGl]
            exact attachPoints_snd_of_fst_nil now (gen u0.region u0.zone u0.area)
              st.global hpts
    have hrest := ih (pointsStep gen now Mode.append st u0)
      (fun x => by rw [hstep.1, hstep.2]; exact hEq x)
      (fun u' hu' => by rw [hstep.1]; exact hI u' (List.mem_cons_of_mem u0 hu'))
    exact ⟨hrest.1.trans hstep.1, hrest.2.trans hstep.2⟩

theorem pointsRun_append_idem (gen : String → String → String → List PointRec)
    (now1 now2 : Nat) (units : List AreaTarget) (tree0 : List Region) :
    (pointsRun gen now2 Mode.append (some units)
        (pointsRun gen now1 Mode.append (some units) tree0).tree).tree =
      (pointsRun gen now1 Mode.append (some units) tree0).tree := by
  have hmode : (if Mode.append = Mode.clean then ([] : List Region) else tree0) =
      tree0 := by
    simp
  simp only [pointsRun, hmode]
  exact (pointsFold_id gen now2 units
    ⟨(units.foldl (pointsStep gen now1 Mode.append)
        ⟨tree0, pointNames tree0, []⟩).tree,
      pointNames (units.foldl (pointsStep gen now1 Mode.append)
        ⟨tree0, pointNames tree0, []⟩).tree, []⟩
    (fun x => Iff.rfl)
    (fun u hu => pointsFold_genOk_establishes gen now1 units
      ⟨tree0, pointNames tree0, []⟩ (fun x hx => hx) u hu)).1

/-- C2 (counterexample): append mode is not idempotent for the zones
stage.  A second run skips a requested region only if a region *with the
requested name* already exists; when the generated record carries a
different name (here request `Japan`, generated record `Nippon`), the
first run appends a node named `Nippon`, the second run again fails to
find `Japan` and appends a second copy, so the trees differ. -/
theorem append_idempotence_counterexample :
    (zonesRun (fun _ => [⟨"Nippon", "", []⟩]) 0 Mode.append (some ["Japan"])
        (zonesRun (fun _ => [⟨"Nippon", "", []⟩]) 0 Mode.append
          (some ["Japan"]) []).tree).tree ≠
      (zonesRun (fun _ => [⟨"Nippon", "", []⟩]) 0 Mode.append
        (some ["Japan"]) []).tree := by
  decide

/-- C2 (amended): running a stage in append mode twice on the same
initial tree yields the same tree as running it once, for the areas
and points stages unconditionally, and for the zones stage under the
additional assumption that the head record generated for a region
request carries the requested name (otherwise see the counterexample).
Moreover the skip clause holds per unit: in append mode, a zones unit
whose region already exists, an areas unit whose located zone has
non-empty children and a points unit whose located area has non-empty
children are skipped with no generation request, no event at all and no
tree or dedup-set mutation. -/
theorem append_idempotence_amended
    (genZ : String → List RegionRec) (genA : String → String → List AreaRec)
    (genP : String → String → String → List PointRec)
    (nz1 nz2 na1 na2 np1 np2 : Nat)
    (uz : List String) (ua : List ZoneTarget) (up : List AreaTarget)
    (tz ta tp : List Region)
    (Hname : ∀ r rec rest, genZ r = rec :: rest → rec.name = r) :
    ((zonesRun genZ nz2 Mode.append (some uz)
        (zonesRun genZ nz1 Mode.append (some uz) tz).tree).tree =
      (zonesRun genZ nz1 Mode.append (some uz) tz).tree) ∧
    ((areasRun genA na2 Mode.append (some ua)
        (areasRun genA na1 Mode.append (some ua) ta).tree).tree =
      (areasRun genA na1 Mode.append (some ua) ta).tree) ∧
    ((pointsRun genP np2 Mode.append (some up)
        (pointsRun genP np1 Mode.append (some up) tp).tree).tree =
      (pointsRun genP np1 Mode.append (some up) tp).tree) ∧
    (∀ tree r R, tree.find? (fun R => R.name == r) = some R →
      zonesUnit genZ nz2 Mode.append tree r =
        (tree, R.children.map (fun z => (⟨r, z.name⟩ : ZoneTarget)), [])) ∧
    (∀ tree (u : ZoneTarget) Z, locateZone tree u.region u.zone = some Z →
      Z.children ≠ [] →
      areasUnit genA na2 Mode.append tree u =
        (tree, Z.children.map (fun a => ⟨u.region, u.zone, a.name⟩), [])) ∧
    (∀ tree g (u : AreaTarget) A, locateArea tree u.region u.zone u.area = some A →
      A.children ≠ [] →
      pointsUnit genP np2 Mode.append tree g u = (tree, g, [])) :=
  ⟨zonesRun_append_idem genZ nz1 nz2 uz tz Hname,
    areasRun_append_idem genA na1 na2 ua ta,
    pointsRun_append_idem genP np1 np2 up tp,
    fun tree r R h => zonesUnit_append_skip genZ nz2 tree r R h,
    fun tree u Z h hne => areasUnit_append_skip genA na2 tree u Z h hne,
    fun tree g u A h hne => pointsUnit_append_skip genP np2 tree g u A h hne⟩

/-- C2 (witness): the amended idempotence at a concrete input whose
zone generator names its record after the requested region. -/
theorem append_idempotence_amended_witness :
    (zonesRun (fun r => [⟨r, "", []⟩]) 0 Mode.append (some ["Japan"])
        (zonesRun (fun r => [⟨r, "", []⟩]) 0 Mode.append
          (some ["Japan"]) []).tree).tree =
      (zonesRun (fun r => [⟨r, "", []⟩]) 0 Mode.append (some ["Japan"]) []).tree :=
  (append_idempotence_amended (fun r => [⟨r, "", []⟩]) (fun _ _ => [])
    (fun _ _ _ => []) 0 0 0 0 0 0 ["Japan"] [] [] [] [] []
    (fun r rec rest h => by injection h with h1 h2; rw [← h1])).1

end DivingDex
